import Mathlib

/-!
# pkg/cmd/factory/http.go

A shallow embedding of `pkg/cmd/factory/http.go` (`NewHTTPClient`,
`AddAuthTokenHeader`, `ExtractHeader`, `funcTripper`, `SSOURL`, `getHost`)
together with the parts of `net/http`, `net/url` and `regexp` they call.

Conventions.

* Go strings are embedded as Lean `String`s; the scanning code works on the
  character list. Every character the source inspects (`;`, `=`, `:`, `-`,
  ASCII letters and digits) is ASCII, so scanning by character and scanning
  by byte agree.
* A Go `error` is `Option Error`, `none` being `nil`.
* Effects are explicit state passing. A transport runs on a state `σ` of its
  own (network, caches, the credential store); the string variable that the
  `dest` pointer of `ExtractHeader` designates lives in `World.mem`, which the
  wrapped transport has no access to (in the source `ssoHeader` is an
  unexported package variable and the pointer is held by the closure only).
-/

namespace Factory

/-! ## net/http, net/url -/

/-- Go error values; the `nil` error is `none : Option Error`. -/
abbrev Error := String

/-- The bytes allowed in a header field name (RFC 7230 token characters),
as tested by `validHeaderFieldByte` in `net/textproto`. -/
def validHeaderFieldByte (c : Char) : Bool :=
  c.isAlphanum || "!#$%&*+-.^_|~".data.contains c || c == Char.ofNat 39 || c == Char.ofNat 96

/-- The letter-case rewriting loop of `canonicalMIMEHeaderKey`: the first letter
and every letter after a hyphen is upper-cased, the others are lower-cased. -/
def canonicalLoop : Bool → List Char → List Char
  | _, [] => []
  | upper, c :: cs =>
    let c1 := if upper then c.toUpper else c.toLower
    c1 :: canonicalLoop (c1 == '-') cs

/-- Model of `textproto.CanonicalMIMEHeaderKey`: a key made of valid header field bytes
is put in canonical case; any other key is returned unchanged. -/
def CanonicalMIMEHeaderKey (s : String) : String :=
  if s.data.all validHeaderFieldByte then String.mk (canonicalLoop true s.data) else s

/-- Model of `http.Header`, a `map[string][]string`: the value list stored under each key,
an absent key reading as the empty list (a map read of a missing key yields `nil`). -/
abbrev Header := String → List String

namespace Header

/-- Model of `Header.Values`: the values stored under the canonical form of the key. -/
def Values (h : Header) (key : String) : List String :=
  h (CanonicalMIMEHeaderKey key)

/-- Model of `Header.Get`: the first value stored under the canonical form of the key,
`""` when there is none. -/
def Get (h : Header) (key : String) : String :=
  match h (CanonicalMIMEHeaderKey key) with
  | [] => ""
  | v :: _ => v

/-- Model of `Header.Set`: the entry under the canonical form of the key is replaced by
the one-element list holding `value`. -/
def Set (h : Header) (key value : String) : Header :=
  Function.update h (CanonicalMIMEHeaderKey key) [value]

end Header

/-- Index of the last occurrence of `c`, as `strings.LastIndexByte` (`none` for `-1`). -/
def lastIndexByte (s : List Char) (c : Char) : Option Nat :=
  match s with
  | [] => none
  | x :: xs =>
    match lastIndexByte xs c with
    | some i => some (i + 1)
    | none => if x = c then some 0 else none

/-- Model of `validOptionalPort` of `net/url`: empty, or a colon followed by digits only. -/
def validOptionalPort (port : List Char) : Bool :=
  match port with
  | [] => true
  | c :: rest => c == ':' && rest.all fun b => decide ('0' ≤ b ∧ b ≤ '9')

/-- Model of `splitHostPort` of `net/url`, host part only: a valid trailing port is cut
off, then enclosing square brackets are removed. -/
def splitHostPort (hostPort : List Char) : List Char :=
  let host :=
    match lastIndexByte hostPort ':' with
    | some colon => if validOptionalPort (hostPort.drop colon) then hostPort.take colon else hostPort
    | none => hostPort
  if host.head? = some '[' ∧ host.getLast? = some ']' then
    (host.drop 1).take (host.length - 2)
  else host

/-- The target of a request, `*url.URL`; only the `Host` field (host or host:port) is read. -/
structure URL where
  Host : String

/-- Model of `(*url.URL).Hostname`. -/
def URL.Hostname (u : URL) : String :=
  String.mk (splitHostPort u.Host.data)

/-- The fields of `http.Request` the decorators read or write. The header map is an
allocated map, as it is for every request built by `http.NewRequest` or sent through an
`http.Client`. -/
structure Request where
  Host : String
  URL : URL
  Header : Header

/-- The field of `http.Response` the decorators read. -/
structure Response where
  StatusCode : Nat
  Header : Header

/-- The pair `(*http.Response, error)` returned by `RoundTrip`. The contract of
`http.RoundTripper` demands a response whenever the error is `nil`, so a `nil` error comes
with a response; with a non-`nil` error the response may be present or `nil`. -/
inductive Result where
  | ok (res : Response)
  | fail (res : Option Response) (err : Error)

/-- The error component of a result pair. -/
def Result.err : Result → Option Error
  | .ok _ => none
  | .fail _ e => some e

/-- The response component of a result pair. -/
def Result.res : Result → Option Response
  | .ok r => some r
  | .fail r _ => r

/-- The interface `http.RoundTripper`, as its `RoundTrip` method acting on a state `σ`. -/
abbrev RoundTripper (σ : Type) := Request → σ → Result × σ

/-! ## pkg/cmd/factory/http.go -/

/-- The interface `configGetter`: `Get(host, key)` returns `(string, error)`; the store
may have state of its own. -/
structure configGetter (σ : Type) where
  Get : String → String → σ → (String × Option Error) × σ

/-- The struct `funcTripper`. -/
structure funcTripper (σ : Type) where
  roundTrip : Request → σ → Result × σ

/-- The method `funcTripper.RoundTrip`. -/
def funcTripper.RoundTrip {σ : Type} (tr : funcTripper σ) : RoundTripper σ :=
  fun req => tr.roundTrip req

/-- The function `getHost`. -/
def getHost (r : Request) : String :=
  if r.Host ≠ "" then r.Host else r.URL.Hostname

/-- The function `AddAuthTokenHeader`; `NormalizeHostname` is `ghinstance.NormalizeHostname`,
which lives in another package and is taken as a parameter. -/
def AddAuthTokenHeader {σ : Type} (NormalizeHostname : String → String)
    (cfg : configGetter σ) (rt : RoundTripper σ) : RoundTripper σ :=
  funcTripper.RoundTrip ⟨fun req s =>
    let hostname := NormalizeHostname (getHost req)
    match cfg.Get hostname "oauth_token" s with
    | ((token, err), s1) =>
      let req1 : Request :=
        if err = none ∧ token ≠ "" then
          { req with Header := req.Header.Set "Authorization" ("token " ++ token) }
        else req
      rt req1 s1⟩

/-- Program state around a transport decorated by `ExtractHeader`: `mem` holds the string
variables a `*string` can point at (addressed by number), `env` is the state of the
wrapped transport. -/
structure World (σ : Type) where
  mem : Nat → String
  env : σ

/-- The function `ExtractHeader`; `dest` is the address of the destination variable. -/
def ExtractHeader {σ : Type} (name : String) (dest : Nat) (tr : RoundTripper σ) :
    RoundTripper (World σ) :=
  funcTripper.RoundTrip ⟨fun req w =>
    match tr req w.env with
    | (.ok res, s1) =>
      let value := res.Header.Get name
      if value ≠ "" then
        (.ok res, { mem := Function.update w.mem dest value, env := s1 })
      else
        (.ok res, { mem := w.mem, env := s1 })
    | (.fail res err, s1) => (.fail res err, { mem := w.mem, env := s1 })⟩

/-! ## The SSO header and `regexp` -/

/-- Address of the package variable `ssoHeader` in `World.mem`. -/
def ssoHeader : Nat := 0

/-- The initial memory: every string variable holds its zero value `""`. -/
def initMem : Nat → String := fun _ => ""

/-- ASCII word characters, the class behind `\b` in Go regular expressions. -/
def isWordChar (c : Char) : Bool :=
  c.isAlphanum || c == '_'

/-- The assertion `\b` between the character before the position (`none` at the start of
the text) and the character after it (`none` at the end). -/
def wordBoundary (before after : Option Char) : Bool :=
  (before.any isWordChar) != (after.any isWordChar)

/-- An attempt to match `url=([^;]+)` at the head of the text: after the literal `url=`
the capture group takes the longest run of characters other than `;` (the `+` is greedy),
which must not be empty. -/
def matchURL (s : List Char) : Option (List Char) :=
  if "url=".data.isPrefixOf s then
    match (s.drop 4).takeWhile (fun c => c != ';') with
    | [] => none
    | m => some m
  else none

/-- The search of `ssoURLRE.FindStringSubmatch`, for the regular expression
`\burl=([^;]+)`, from a position whose preceding character is `before`: the leftmost
position at which the expression matches wins; the result is the capture group `m[1]`. -/
def findSubmatch (before : Option Char) : List Char → Option (List Char)
  | [] => none
  | c :: cs =>
    match (if wordBoundary before (some c) then matchURL (c :: cs) else none) with
    | some m => some m
    | none => findSubmatch (some c) cs

/-- The function `SSOURL`, reading the variable `ssoHeader` whose content is passed in. -/
def SSOURL (ssoHeader : String) : String :=
  if ssoHeader = "" then ""
  else
    match findSubmatch none ssoHeader.data with
    | none => ""
    | some m => String.mk m

/-! ## Sequential use -/

/-- A caller issuing the requests one after the other through the same transport: the
result pairs in order, and the final state. -/
def roundTrips {σ : Type} (tr : RoundTripper σ) : List Request → σ → List Result × σ
  | [], s => ([], s)
  | req :: rest, s =>
    match tr req s with
    | (r, s1) =>
      match roundTrips tr rest s1 with
      | (rs, s2) => (r :: rs, s2)

/-- The header value an outcome offers for capture: the named header of a response that
came without error, if that value is not empty. -/
def offered (name : String) : Result → Option String
  | .ok res => if res.Header.Get name ≠ "" then some (res.Header.Get name) else none
  | .fail _ _ => none

/-- The value offered by the last outcome that offers one, `""` when no outcome does. -/
def lastOffered (name : String) (outcomes : List Result) : String :=
  ((outcomes.filterMap (offered name)).getLast?).getD ""

/-! ## The client factory -/

/-- An `io.Writer` value, identified by a number; the `nil` writer is `none : Option Writer`. -/
abbrev Writer := Nat

/-- The struct `HTTPClientOptions`; `CacheTTL` is a `time.Duration`, a number of
nanoseconds. -/
structure HTTPClientOptions (σ : Type) where
  AppVersion : String
  CacheTTL : Int
  Config : configGetter σ
  EnableCache : Bool
  Log : Option Writer
  SkipAcceptHeaders : Bool

/-- The fields of `ghAPI.ClientOptions` (package `go-gh`) that `NewHTTPClient` sets;
`Headers` is a `map[string]string`, an absent key reading as `none`. -/
structure ClientOptions where
  Headers : String → Option String
  EnableCache : Bool
  CacheTTL : Int
  Log : Option Writer

/-- The fields of `http.Client` involved: the transport, and the timeout standing for the
fields `NewHTTPClient` does not touch. -/
structure Client (σ : Type) where
  Transport : RoundTripper σ
  Timeout : Int

/-- The pair `(*http.Client, error)` returned by `gh.HTTPClient`: a client when the error
is `nil`; with a non-`nil` error a client may or may not come along. -/
inductive ClientResult (σ : Type) where
  | ok (client : Client σ)
  | fail (client : Option (Client σ)) (err : Error)

/-- The error component of the pair returned by `gh.HTTPClient`. -/
def ClientResult.err {σ : Type} : ClientResult σ → Option Error
  | .ok _ => none
  | .fail _ e => some e

/-- The value of the local variable `clientOpts` of `NewHTTPClient` when it is passed to
`gh.HTTPClient` (lines 30 to 47 of the source); `IsDebugEnabled` is the pair returned by
`utils.IsDebugEnabled()`, which reads the environment. -/
def clientOpts {σ : Type} (IsDebugEnabled : Bool × String) (opts : HTTPClientOptions σ) :
    ClientOptions :=
  let c0 : ClientOptions :=
    { Headers := fun _ => none, EnableCache := false, CacheTTL := 0, Log := none }
  let c1 : ClientOptions := if IsDebugEnabled.1 then { c0 with Log := opts.Log } else c0
  let headers0 : String → Option String :=
    Function.update (fun _ => none) "User-Agent" (some ("GitHub CLI " ++ opts.AppVersion))
  let headers : String → Option String :=
    if opts.SkipAcceptHeaders then Function.update headers0 "Accept" (some "") else headers0
  let c2 : ClientOptions := { c1 with Headers := headers }
  if opts.EnableCache then
    { c2 with EnableCache := opts.EnableCache, CacheTTL := opts.CacheTTL }
  else c2

/-- The function `NewHTTPClient`, returning the pair `(*http.Client, error)`. The
constructor `gh.HTTPClient` and `ghinstance.NormalizeHostname` belong to other packages
and are parameters, as is the result of `utils.IsDebugEnabled()`. -/
def NewHTTPClient {σ : Type} (IsDebugEnabled : Bool × String)
    (HTTPClient : ClientOptions → ClientResult σ) (NormalizeHostname : String → String)
    (opts : HTTPClientOptions σ) : Option (Client (World σ)) × Option Error :=
  match HTTPClient (clientOpts IsDebugEnabled opts) with
  | .fail _ err => (none, some err)
  | .ok client =>
    let transport1 := AddAuthTokenHeader NormalizeHostname opts.Config client.Transport
    let transport2 := ExtractHeader "X-GitHub-SSO" ssoHeader transport1
    (some { Transport := transport2, Timeout := client.Timeout }, none)

/-! ## Call traces -/

/-- A call made to one of the two collaborators of the chain. -/
inductive Event where
  | lookup (host key : String)
  | roundTrip (req : Request)

/-- A credential store instrumented to append each call of `Get` to a trace kept next to
its own state. -/
def tracedGetter {σ : Type} (cfg : configGetter σ) : configGetter (List Event × σ) :=
  ⟨fun host key s =>
    match cfg.Get host key s.2 with
    | (r, s1) => (r, (s.1 ++ [Event.lookup host key], s1))⟩

/-- A transport instrumented to append each call of `RoundTrip` to the trace. -/
def tracedTransport {σ : Type} (rt : RoundTripper σ) : RoundTripper (List Event × σ) :=
  fun req s =>
    match rt req s.2 with
    | (r, s1) => (r, (s.1 ++ [Event.roundTrip req], s1))

/-! ## The narrowly-scoped parser of the specification -/

/-- Specification side: the value split on `;`, as `strings.Split` does: the pieces
between the semicolons, in order (a value without `;` is one piece). -/
def splitAttributes : List Char → List (List Char)
  | [] => [[]]
  | c :: cs =>
    if c = ';' then [] :: splitAttributes cs
    else
      match splitAttributes cs with
      | [] => [[c]]
      | p :: ps => (c :: p) :: ps

/-- Specification side: an attribute split on its first `=` into key and value; an
attribute without `=` has no key and no value. -/
def splitKeyValue : List Char → Option (List Char × List Char)
  | [] => none
  | c :: cs =>
    if c = '=' then some ([], cs)
    else
      match splitKeyValue cs with
      | some (k, v) => some (c :: k, v)
      | none => none

/-- Specification side: the value of an attribute whose key, after leading whitespace
(space, tab, carriage return, line feed) is dropped, is exactly `url`. -/
def attributeURL (a : List Char) : Option (List Char) :=
  match splitKeyValue (a.dropWhile Char.isWhitespace) with
  | some (k, v) => if k = "url".data then some v else none
  | none => none

/-- Specification side: the narrowly-scoped parser of the design notes: split on `;`,
split each attribute on its first `=`, return the value of the first attribute whose key
is `url`, and the empty string if there is none. -/
def specSSOURL (value : String) : String :=
  match (splitAttributes value.data).findSome? attributeURL with
  | some v => String.mk v
  | none => ""

/-- Specification side: the text `url=` occurs in the value at a place where it starts a
word and has something to give: it stands at the start of the value or after a character
that is not a letter, a digit or `_`, and the character after it is not `;`. -/
def urlOccurrence (l : List Char) : Prop :=
  ∃ (A B : List Char) (c : Char), l = A ++ ("url=".data ++ c :: B) ∧ c ≠ ';' ∧
    ∀ a : Char, A.getLast? = some a → isWordChar a = false

/-- The pieces of `splitAttributes` put together again with `;` between them. -/
def joinAttributes : List (List Char) → List Char
  | [] => []
  | [p] => p
  | p :: q :: ps => p ++ ';' :: joinAttributes (q :: ps)

/-- An attribute on which the regular expression and the parser read the same thing: it
holds no occurrence of `url=`, or, once leading whitespace is dropped, it is `url=`
followed by at least one more character. -/
def plainAttribute (a : List Char) : Prop :=
  (¬ "url=".data <:+: a) ∨
    ("url=".data <+: a.dropWhile Char.isWhitespace ∧
      4 < (a.dropWhile Char.isWhitespace).length)

/-- Whether an attribute is plain can be computed. -/
instance plainAttribute.decidable (a : List Char) : Decidable (plainAttribute a) :=
  inferInstanceAs (Decidable (_ ∨ _))

/-! ## Sample inputs -/

/-- A credential store that knows one token, for `github.com`. -/
def sampleConfig : configGetter Unit :=
  ⟨fun host _ s => if host = "github.com" then (("abc", none), s) else (("", some "not found"), s)⟩

/-- A credential store whose lookup always fails. -/
def failingConfig : configGetter Unit :=
  ⟨fun _ _ s => (("", some "not found"), s)⟩

/-- A request to `github.com` that already carries an `Authorization` header. -/
def sampleRequest : Request :=
  { Host := "", URL := ⟨"github.com:443"⟩,
    Header := fun k => if k = "Authorization" then ["Basic xyz", "other"] else [] }

/-- A response carrying an `X-GitHub-SSO` header. -/
def ssoResponse : Response :=
  { StatusCode := 403,
    Header := fun k => if k = "X-Github-Sso" then ["url=https://example.com/sso; other=x"] else [] }

/-- A response without headers. -/
def plainResponse : Response :=
  { StatusCode := 200, Header := fun _ => [] }

/-- A transport that answers every request with `ssoResponse`. -/
def ssoTransport : RoundTripper Unit := fun _ s => (.ok ssoResponse, s)

/-- A transport that answers every request with `plainResponse`. -/
def plainTransport : RoundTripper Unit := fun _ s => (.ok plainResponse, s)

/-- A transport that fails, although it hands back a response carrying the header. -/
def failingTransport : RoundTripper Unit := fun _ s => (.fail (some ssoResponse) "EOF", s)

/-- A world whose `ssoHeader` variable already holds a capture. -/
def capturedWorld : World Unit :=
  { mem := fun a => if a = ssoHeader then "url=https://old.example/sso" else "", env := () }

/-- A response carrying an older `X-GitHub-SSO` header. -/
def oldResponse : Response :=
  { StatusCode := 403,
    Header := fun k => if k = "X-Github-Sso" then ["url=https://old.example/sso"] else [] }

/-- A transport that plays back the outcomes listed in its state, one per request, and
fails once the list is used up. -/
def scriptedTransport : RoundTripper (List Result) := fun _ s =>
  match s with
  | [] => (.fail none "no outcome left", [])
  | r :: rest => (r, rest)

/-- Four outcomes: two captures, then an error that carries a response, then a response
without the header. -/
def sampleScript : List Result :=
  [.ok oldResponse, .ok ssoResponse, .fail (some oldResponse) "EOF", .ok plainResponse]

/-- A world with empty string variables, before any request. -/
def initWorld : World (List Result) :=
  { mem := initMem, env := sampleScript }

/-- Options with the accept header suppressed and the cache disabled. -/
def sampleOptions : HTTPClientOptions Unit :=
  { AppVersion := "2.0.0", CacheTTL := 60, Config := sampleConfig, EnableCache := false,
    Log := some 1, SkipAcceptHeaders := true }

/-- A constructor that succeeds with a client over `ssoTransport`. -/
def sampleHTTPClient : ClientOptions → ClientResult Unit :=
  fun _ => .ok { Transport := ssoTransport, Timeout := 30 }

/-- A constructor that fails. -/
def failingHTTPClient : ClientOptions → ClientResult Unit :=
  fun _ => .fail none "bad options"

/-- The answers of `sampleConfig`, as a function of host and key. -/
def sampleAnswer : String → String → String × Option Error :=
  fun host _ => if host = "github.com" then ("abc", none) else ("", some "not found")

/-! ## Theorems -/

theorem Header.Values_Set (h : Header) (key value : String) :
    (h.Set key value).Values key = [value] := by
  simp [Header.Values, Header.Set]

theorem Header.Get_Set (h : Header) (key value : String) :
    (h.Set key value).Get key = value := by
  simp [Header.Get, Header.Set]

/-- The request `AddAuthTokenHeader` passes on, given the result of the lookup. -/
theorem AddAuthTokenHeader_applies {σ : Type} (norm : String → String)
    (cfg : configGetter σ) (req : Request) (s : σ) :
    ∃ (req1 : Request) (s1 : σ), ∀ rt : RoundTripper σ,
      AddAuthTokenHeader norm cfg rt req s = rt req1 s1 := by
  rcases hget : cfg.Get (norm (getHost req)) "oauth_token" s with ⟨⟨t, err⟩, s1⟩
  by_cases hc : err = none ∧ t ≠ ""
  · exact ⟨{ req with Header := req.Header.Set "Authorization" ("token " ++ t) }, s1,
      fun rt => by simp [AddAuthTokenHeader, funcTripper.RoundTrip, hget, hc]⟩
  · exact ⟨req, s1, fun rt => by simp [AddAuthTokenHeader, funcTripper.RoundTrip, hget, hc]⟩

/-- The round trip through `ExtractHeader` returns the pair of the wrapped transport. -/
theorem ExtractHeader_result {σ : Type} (name : String) (dest : Nat) (tr : RoundTripper σ)
    (req : Request) (w : World σ) :
    (ExtractHeader name dest tr req w).1 = (tr req w.env).1 := by
  simp only [ExtractHeader, funcTripper.RoundTrip]
  rcases tr req w.env with ⟨r | ⟨r, e⟩, s2⟩
  · by_cases hv : r.Header.Get name = "" <;> simp [hv]
  · simp

/-- C1: when the lookup for the normalized host of the request returns no error and a
non-empty token `t`, there is one request `req1` that `AddAuthTokenHeader cfg rt` hands to
every inner transport `rt`, and its `Authorization` header is the single value
`"token " ++ t`, whatever the header held before. -/
theorem AddAuthTokenHeader_sets_authorization {σ : Type} (norm : String → String)
    (cfg : configGetter σ) (req : Request) (s s1 : σ) (t : String)
    (hget : cfg.Get (norm (getHost req)) "oauth_token" s = ((t, none), s1))
    (ht : t ≠ "") :
    ∃ req1 : Request,
      (∀ rt : RoundTripper σ, AddAuthTokenHeader norm cfg rt req s = rt req1 s1) ∧
      req1.Header.Values "Authorization" = ["token " ++ t] ∧
      req1.Header.Get "Authorization" = "token " ++ t := by
  refine ⟨{ req with Header := req.Header.Set "Authorization" ("token " ++ t) }, ?_, ?_, ?_⟩
  · intro rt
    simp [AddAuthTokenHeader, funcTripper.RoundTrip, hget, ht]
  · exact Header.Values_Set _ _ _
  · exact Header.Get_Set _ _ _

/-- Witness for C1 at `sampleConfig` and `sampleRequest`. -/
theorem AddAuthTokenHeader_sets_authorization_witness :
    sampleConfig.Get (id (getHost sampleRequest)) "oauth_token" () = (("abc", none), ()) ∧
    "abc" ≠ "" ∧
    sampleRequest.Header.Values "Authorization" = ["Basic xyz", "other"] ∧
    ∃ req1 : Request,
      (∀ rt : RoundTripper Unit,
        AddAuthTokenHeader id sampleConfig rt sampleRequest () = rt req1 ()) ∧
      req1.Header.Values "Authorization" = ["token " ++ "abc"] ∧
      req1.Header.Get "Authorization" = "token " ++ "abc" :=
  ⟨by decide, by decide, by decide,
    AddAuthTokenHeader_sets_authorization id sampleConfig sampleRequest () () "abc"
      (by decide) (by decide)⟩

/-- C2: when the lookup for the normalized host of the request returns an error or the
empty string, `AddAuthTokenHeader cfg rt` calls `rt` with the caller's request as it is
(so its `Authorization` header is what it was, absent if it was absent) and its result is
the result of `rt`: the decorator adds no error. -/
theorem AddAuthTokenHeader_no_token {σ : Type} (norm : String → String)
    (cfg : configGetter σ) (req : Request) (s s1 : σ) (t : String) (err : Option Error)
    (hget : cfg.Get (norm (getHost req)) "oauth_token" s = ((t, err), s1))
    (h : err ≠ none ∨ t = "") :
    ∀ rt : RoundTripper σ, AddAuthTokenHeader norm cfg rt req s = rt req s1 := by
  intro rt
  have hc : ¬ (err = none ∧ t ≠ "") := by
    rintro ⟨h1, h2⟩
    rcases h with h | h
    · exact h h1
    · exact h2 h
  simp [AddAuthTokenHeader, funcTripper.RoundTrip, hget, hc]

/-- Witness for C2 at a store whose lookup fails. -/
theorem AddAuthTokenHeader_no_token_witness :
    failingConfig.Get (id (getHost sampleRequest)) "oauth_token" () =
      (("", some "not found"), ()) ∧
    ((some "not found" : Option Error) ≠ none ∨ "" = "") ∧
    ∀ rt : RoundTripper Unit,
      AddAuthTokenHeader id failingConfig rt sampleRequest () = rt sampleRequest () :=
  ⟨by decide, by decide,
    AddAuthTokenHeader_no_token id failingConfig sampleRequest () () "" (some "not found")
      (by decide) (by decide)⟩

/-- C3: the behaviour of `AddAuthTokenHeader` depends on the credential store through one
lookup only, made with key `"oauth_token"` and host `NormalizeHostname h`, where `h` is the
`Host` field of the request when that field is not empty and the hostname of the URL
otherwise: the request handed to the inner transport is a function of the result of that
lookup, and the inner transport runs in the state that lookup leaves. -/
theorem AddAuthTokenHeader_lookup_key :
    ∃ f : String × Option Error → Request → Request,
      ∀ (σ : Type) (norm : String → String) (cfg : configGetter σ) (rt : RoundTripper σ)
        (req : Request) (s : σ),
        AddAuthTokenHeader norm cfg rt req s =
          rt (f (cfg.Get (norm (if req.Host ≠ "" then req.Host else req.URL.Hostname))
                  "oauth_token" s).1 req)
             (cfg.Get (norm (if req.Host ≠ "" then req.Host else req.URL.Hostname))
                  "oauth_token" s).2 := by
  refine ⟨fun r req =>
    if r.2 = none ∧ r.1 ≠ "" then
      { req with Header := req.Header.Set "Authorization" ("token " ++ r.1) }
    else req, ?_⟩
  intro σ norm cfg rt req s
  simp only [AddAuthTokenHeader, funcTripper.RoundTrip, getHost]

/-- C4: when the inner round trip returns a response without error and the response's
value for the named header is a non-empty string `v`, the destination variable holds `v`
after the round trip through `ExtractHeader name dest`, whatever it held before. -/
theorem ExtractHeader_captures {σ : Type} (name : String) (dest : Nat)
    (tr : RoundTripper σ) (req : Request) (w : World σ) (res : Response) (s1 : σ)
    (v : String) (hrt : tr req w.env = (.ok res, s1)) (hv : res.Header.Get name = v)
    (hne : v ≠ "") :
    (ExtractHeader name dest tr req w).2.mem dest = v := by
  subst hv
  simp [ExtractHeader, funcTripper.RoundTrip, hrt, hne]

/-- Witness for C4: a captured value is overwritten by the header of a new response. -/
theorem ExtractHeader_captures_witness :
    ssoTransport sampleRequest capturedWorld.env = (.ok ssoResponse, ()) ∧
    ssoResponse.Header.Get "X-GitHub-SSO" = "url=https://example.com/sso; other=x" ∧
    capturedWorld.mem ssoHeader = "url=https://old.example/sso" ∧
    (ExtractHeader "X-GitHub-SSO" ssoHeader ssoTransport sampleRequest capturedWorld).2.mem
      ssoHeader = "url=https://example.com/sso; other=x" :=
  ⟨rfl, by decide, by decide,
    ExtractHeader_captures "X-GitHub-SSO" ssoHeader ssoTransport sampleRequest capturedWorld
      ssoResponse () "url=https://example.com/sso; other=x" rfl (by decide) (by decide)⟩

/-- C6: when the inner round trip returns an error `e` (with or without a response), the
round trip through `ExtractHeader name dest` returns the same pair, hence the same error,
leaves the string variables as they were, the destination among them, and `SSOURL` of the
destination is unchanged. -/
theorem ExtractHeader_error {σ : Type} (name : String) (dest : Nat)
    (tr : RoundTripper σ) (req : Request) (w : World σ) (res : Option Response) (e : Error)
    (s1 : σ) (hrt : tr req w.env = (.fail res e, s1)) :
    (ExtractHeader name dest tr req w).1 = .fail res e ∧
    (ExtractHeader name dest tr req w).1.err = some e ∧
    (ExtractHeader name dest tr req w).2.mem dest = w.mem dest ∧
    (ExtractHeader name dest tr req w).2.mem = w.mem ∧
    SSOURL ((ExtractHeader name dest tr req w).2.mem dest) = SSOURL (w.mem dest) := by
  simp [ExtractHeader, funcTripper.RoundTrip, hrt, Result.err]

/-- Witness for C6: the failing transport hands back a response carrying the header, and
the captured value stays. -/
theorem ExtractHeader_error_witness :
    failingTransport sampleRequest capturedWorld.env = (.fail (some ssoResponse) "EOF", ()) ∧
    ssoResponse.Header.Get "X-GitHub-SSO" = "url=https://example.com/sso; other=x" ∧
    (ExtractHeader "X-GitHub-SSO" ssoHeader failingTransport sampleRequest capturedWorld).1 =
      .fail (some ssoResponse) "EOF" ∧
    (ExtractHeader "X-GitHub-SSO" ssoHeader failingTransport sampleRequest capturedWorld).1.err =
      some "EOF" ∧
    (ExtractHeader "X-GitHub-SSO" ssoHeader failingTransport sampleRequest capturedWorld).2.mem
      ssoHeader = capturedWorld.mem ssoHeader ∧
    (ExtractHeader "X-GitHub-SSO" ssoHeader failingTransport sampleRequest capturedWorld).2.mem =
      capturedWorld.mem ∧
    SSOURL ((ExtractHeader "X-GitHub-SSO" ssoHeader failingTransport sampleRequest
      capturedWorld).2.mem ssoHeader) = SSOURL (capturedWorld.mem ssoHeader) :=
  ⟨rfl, by decide,
    ExtractHeader_error "X-GitHub-SSO" ssoHeader failingTransport sampleRequest capturedWorld
      (some ssoResponse) "EOF" () rfl⟩

/-- C7: when the inner round trip returns a response without error and the named header
of the response is absent or empty, the round trip through `ExtractHeader name dest`
returns that response without error, the destination variable still holds the value `c`
it held before, and `SSOURL` of the destination is unchanged. -/
theorem ExtractHeader_no_header {σ : Type} (name : String) (dest : Nat)
    (tr : RoundTripper σ) (req : Request) (w : World σ) (res : Response) (s1 : σ)
    (c : String) (hc : w.mem dest = c) (hrt : tr req w.env = (.ok res, s1))
    (hv : res.Header.Values name = [] ∨ (res.Header.Values name).head? = some "") :
    (ExtractHeader name dest tr req w).1 = .ok res ∧
    (ExtractHeader name dest tr req w).1.err = none ∧
    (ExtractHeader name dest tr req w).2.mem dest = c ∧
    SSOURL ((ExtractHeader name dest tr req w).2.mem dest) = SSOURL c := by
  have hg : res.Header.Get name = "" := by
    unfold Header.Values at hv
    unfold Header.Get
    rcases hv with hv | hv
    · rw [hv]
    · cases hl : res.Header (CanonicalMIMEHeaderKey name) with
      | nil => rfl
      | cons a l =>
        rw [hl] at hv
        simpa using hv
  simp [ExtractHeader, funcTripper.RoundTrip, hrt, hg, hc, Result.err]

/-- Witness for C7: a response without the header keeps the earlier capture. -/
theorem ExtractHeader_no_header_witness :
    capturedWorld.mem ssoHeader = "url=https://old.example/sso" ∧
    plainTransport sampleRequest capturedWorld.env = (.ok plainResponse, ()) ∧
    plainResponse.Header.Values "X-GitHub-SSO" = [] ∧
    (ExtractHeader "X-GitHub-SSO" ssoHeader plainTransport sampleRequest capturedWorld).1 =
      .ok plainResponse ∧
    (ExtractHeader "X-GitHub-SSO" ssoHeader plainTransport sampleRequest capturedWorld).1.err =
      none ∧
    (ExtractHeader "X-GitHub-SSO" ssoHeader plainTransport sampleRequest capturedWorld).2.mem
      ssoHeader = "url=https://old.example/sso" ∧
    SSOURL ((ExtractHeader "X-GitHub-SSO" ssoHeader plainTransport sampleRequest
      capturedWorld).2.mem ssoHeader) = SSOURL "url=https://old.example/sso" :=
  ⟨by decide, rfl, by decide,
    ExtractHeader_no_header "X-GitHub-SSO" ssoHeader plainTransport sampleRequest capturedWorld
      plainResponse () "url=https://old.example/sso" (by decide) rfl (Or.inl (by decide))⟩

/-- C10: for every credential store and request there is one request `req1` and one state
`s1` with which the chain `ExtractHeader name dest (AddAuthTokenHeader cfg base)` calls the
base transport, and the pair of response and error the chain returns is the pair `base`
returned for that call, for every base transport. -/
theorem chain_returns_base_result {σ : Type} (norm : String → String)
    (cfg : configGetter σ) (name : String) (dest : Nat) (req : Request) (w : World σ) :
    ∃ (req1 : Request) (s1 : σ), ∀ base : RoundTripper σ,
      (ExtractHeader name dest (AddAuthTokenHeader norm cfg base) req w).1 =
        (base req1 s1).1 ∧
      (ExtractHeader name dest (AddAuthTokenHeader norm cfg base) req w).1.res =
        (base req1 s1).1.res ∧
      (ExtractHeader name dest (AddAuthTokenHeader norm cfg base) req w).1.err =
        (base req1 s1).1.err := by
  obtain ⟨req1, s1, hf⟩ := AddAuthTokenHeader_applies norm cfg req w.env
  refine ⟨req1, s1, fun base => ?_⟩
  have h1 : (ExtractHeader name dest (AddAuthTokenHeader norm cfg base) req w).1 =
      (base req1 s1).1 := by
    rw [ExtractHeader_result, hf base]
  exact ⟨h1, by rw [h1], by rw [h1]⟩

/-! ### The regular expression -/

theorem matchURL_eq_none (s : List Char) (h : ¬ "url=".data <+: s) : matchURL s = none := by
  have hp : "url=".data.isPrefixOf s = false := by
    rw [Bool.eq_false_iff]
    intro hp
    exact h (List.isPrefixOf_iff_prefix.mp hp)
  simp [matchURL, hp]

theorem findSubmatch_eq_none (l : List Char) (before : Option Char)
    (h : ¬ "url=".data <:+: l) : findSubmatch before l = none := by
  induction l generalizing before with
  | nil => rfl
  | cons c cs ih =>
    have hm : matchURL (c :: cs) = none := matchURL_eq_none _ fun hp => h hp.isInfix
    have hcs : findSubmatch (some c) cs = none := ih (some c) fun hi => h (List.infix_cons hi)
    simp [findSubmatch, hm, hcs]

theorem takeWhile_capture (U R : List Char) (hU : ';' ∉ U)
    (hR : R = [] ∨ R.head? = some ';') :
    (U ++ R).takeWhile (fun c => c != ';') = U := by
  have hall : ∀ a ∈ U, (fun c : Char => c != ';') a = true := by
    intro a ha
    have : a ≠ ';' := fun h => hU (h ▸ ha)
    simpa using this
  rw [List.takeWhile_append_of_pos hall]
  rcases hR with hR | hR
  · simp [hR]
  · cases R with
    | nil => simp
    | cons r R1 =>
      have hr : r = ';' := by simpa using hR
      simp [hr, List.takeWhile]

theorem matchURL_at (U R : List Char) (hU0 : U ≠ []) (hU : ';' ∉ U)
    (hR : R = [] ∨ R.head? = some ';') :
    matchURL ("url=".data ++ (U ++ R)) = some U := by
  have hp : "url=".data.isPrefixOf ("url=".data ++ (U ++ R)) = true :=
    List.isPrefixOf_iff_prefix.mpr (List.prefix_append _ _)
  have hd : ("url=".data ++ (U ++ R)).drop 4 = U ++ R := by
    have h4 : "url=".data.length = 4 := by decide
    rw [← h4, List.drop_left]
  unfold matchURL
  rw [if_pos hp, hd, takeWhile_capture U R hU hR]
  cases U with
  | nil => exact absurd rfl hU0
  | cons a U1 => rfl

theorem not_prefix_of_tail (P X : List Char) (hne : P ≠ [])
    (hlast : P.getLast? = some ';' ∨ P.getLast? = some ' ')
    (hno : ¬ "url=".data <:+: P) : ¬ "url=".data <+: P ++ X := by
  intro hp
  have hP : P <+: P ++ X := List.prefix_append _ _
  by_cases hlen : 4 ≤ P.length
  · exact hno (List.prefix_of_prefix_length_le hp hP hlen).isInfix
  · have hPu : P <+: "url=".data :=
      List.prefix_of_prefix_length_le hP hp (by
        have h4 : "url=".data.length = 4 := by decide
        omega)
    have hPe := List.prefix_iff_eq_take.mp hPu
    have hpos : 0 < P.length := List.length_pos.mpr hne
    have hcases : P.length = 1 ∨ P.length = 2 ∨ P.length = 3 := by omega
    rcases hcases with h | h | h <;> rw [h] at hPe <;> rw [hPe] at hlast <;>
      revert hlast <;> decide

theorem findSubmatch_skip (P X : List Char) (before : Option Char)
    (hlast : P = [] ∨ P.getLast? = some ';' ∨ P.getLast? = some ' ')
    (hno : ¬ "url=".data <:+: P) :
    findSubmatch before (P ++ X) = findSubmatch (if P = [] then before else P.getLast?) X := by
  induction P generalizing before with
  | nil => simp
  | cons c P1 ih =>
    have hlast1 : (c :: P1).getLast? = some ';' ∨ (c :: P1).getLast? = some ' ' := by
      rcases hlast with h | h
      · exact absurd h (List.cons_ne_nil _ _)
      · exact h
    have hm : matchURL (c :: (P1 ++ X)) = none :=
      matchURL_eq_none _ (not_prefix_of_tail (c :: P1) X (List.cons_ne_nil _ _) hlast1 hno)
    have hno1 : ¬ "url=".data <:+: P1 := fun hi => hno (List.infix_cons hi)
    have hl1 : P1 = [] ∨ P1.getLast? = some ';' ∨ P1.getLast? = some ' ' := by
      cases P1 with
      | nil => exact Or.inl rfl
      | cons d P2 =>
        right
        simpa [List.getLast?_cons_cons] using hlast1
    have hstep : findSubmatch before (c :: P1 ++ X) = findSubmatch (some c) (P1 ++ X) := by
      simp [findSubmatch, hm]
    rw [hstep, ih (some c) hl1 hno1]
    cases P1 with
    | nil => simp
    | cons d P2 => simp [List.getLast?_cons_cons]

theorem findSubmatch_at (b : Option Char) (U R : List Char)
    (hb : b = none ∨ b = some ';' ∨ b = some ' ') (hU0 : U ≠ []) (hU : ';' ∉ U)
    (hR : R = [] ∨ R.head? = some ';') :
    findSubmatch b ("url=".data ++ (U ++ R)) = some U := by
  have hm := matchURL_at U R hU0 hU hR
  have hcons : "url=".data ++ (U ++ R) = 'u' :: ("rl=".data ++ (U ++ R)) := rfl
  have hw : wordBoundary b (some 'u') = true := by
    rcases hb with h | h | h <;> subst h <;> decide
  rw [hcons] at hm ⊢
  rw [findSubmatch, if_pos hw, hm]

/-- C5: for a captured value `P ++ "url=" ++ U ++ R` in which `U` is not empty and holds
no `;`, `R` is empty or starts with `;`, and `P` is empty or ends with `;` or a space and
holds no occurrence of `url=`, `SSOURL` returns `U` itself, neither decoded nor trimmed. -/
theorem SSOURL_extracts (P U R : String) (hU0 : U ≠ "") (hU : ';' ∉ U.data)
    (hR : R = "" ∨ R.data.head? = some ';')
    (hP : P = "" ∨ P.data.getLast? = some ';' ∨ P.data.getLast? = some ' ')
    (hno : ¬ "url=".data <:+: P.data) :
    SSOURL (P ++ "url=" ++ U ++ R) = U := by
  have hU0d : U.data ≠ [] := fun h => hU0 (String.ext h)
  have hRd : R.data = [] ∨ R.data.head? = some ';' := by
    rcases hR with h | h
    · exact Or.inl (by rw [h])
    · exact Or.inr h
  have hPd : P.data = [] ∨ P.data.getLast? = some ';' ∨ P.data.getLast? = some ' ' := by
    rcases hP with h | h
    · exact Or.inl (by rw [h])
    · exact Or.inr h
  have hdata : (P ++ "url=" ++ U ++ R).data = P.data ++ ("url=".data ++ (U.data ++ R.data)) := by
    simp [String.data_append]
  have hne : P ++ "url=" ++ U ++ R ≠ "" := by
    intro h
    have hd := congrArg String.data h
    rw [hdata] at hd
    have hlen := congrArg List.length hd
    rw [List.length_append, List.length_append] at hlen
    have h4 : "url=".data.length = 4 := by decide
    have h0 : "".data.length = 0 := by decide
    omega
  have hb : (if P.data = [] then (none : Option Char) else P.data.getLast?) = none ∨
      (if P.data = [] then (none : Option Char) else P.data.getLast?) = some ';' ∨
      (if P.data = [] then (none : Option Char) else P.data.getLast?) = some ' ' := by
    rcases hPd with h | h | h
    · exact Or.inl (by rw [if_pos h])
    · have hn : P.data ≠ [] := by
        intro h0
        rw [h0] at h
        exact absurd h (by decide)
      exact Or.inr (Or.inl (by rw [if_neg hn, h]))
    · have hn : P.data ≠ [] := by
        intro h0
        rw [h0] at h
        exact absurd h (by decide)
      exact Or.inr (Or.inr (by rw [if_neg hn, h]))
  unfold SSOURL
  rw [if_neg hne, hdata, findSubmatch_skip P.data _ none hPd hno,
    findSubmatch_at _ U.data R.data hb hU0d hU hRd]

/-- Witness for C5: the captured value `url=https://example.com/sso; other=x` gives
`https://example.com/sso`. -/
theorem SSOURL_extracts_witness :
    "" ++ "url=" ++ "https://example.com/sso" ++ "; other=x" =
      "url=https://example.com/sso; other=x" ∧
    "https://example.com/sso" ≠ "" ∧ ';' ∉ "https://example.com/sso".data ∧
    "; other=x".data.head? = some ';' ∧ ¬ "url=".data <:+: "".data ∧
    SSOURL ("" ++ "url=" ++ "https://example.com/sso" ++ "; other=x") =
      "https://example.com/sso" :=
  ⟨by decide, by decide, by decide, by decide, by decide,
    SSOURL_extracts "" "https://example.com/sso" "; other=x" (by decide) (by decide)
      (Or.inr (by decide)) (Or.inl rfl) (by decide)⟩

/-! ### Sequences of round trips -/

theorem ExtractHeader_step {σ : Type} (name : String) (dest : Nat) (tr : RoundTripper σ)
    (req : Request) (w : World σ) :
    ExtractHeader name dest tr req w =
      ((tr req w.env).1,
        { mem := match offered name (tr req w.env).1 with
            | some v => Function.update w.mem dest v
            | none => w.mem,
          env := (tr req w.env).2 }) := by
  simp only [ExtractHeader, funcTripper.RoundTrip]
  rcases tr req w.env with ⟨r | ⟨r, e⟩, s2⟩
  · by_cases hv : r.Header.Get name = "" <;> simp [offered, hv]
  · simp [offered]

theorem roundTrips_ExtractHeader {σ : Type} (name : String) (dest : Nat)
    (tr : RoundTripper σ) (reqs : List Request) (w : World σ) :
    (roundTrips (ExtractHeader name dest tr) reqs w).1 = (roundTrips tr reqs w.env).1 ∧
    (roundTrips (ExtractHeader name dest tr) reqs w).2.mem dest =
      (((roundTrips tr reqs w.env).1.filterMap (offered name)).getLast?).getD (w.mem dest) := by
  induction reqs generalizing w with
  | nil => simp [roundTrips]
  | cons req rest ih =>
    simp only [roundTrips]
    rw [ExtractHeader_step]
    rcases htr : tr req w.env with ⟨r, s1⟩
    simp only
    cases ho : offered name r with
    | none =>
      have := ih { mem := w.mem, env := s1 }
      simp only at this
      refine ⟨by rw [this.1], ?_⟩
      rw [this.2, List.filterMap_cons, ho]
    | some v =>
      have := ih { mem := Function.update w.mem dest v, env := s1 }
      simp only at this
      refine ⟨by rw [this.1], ?_⟩
      rw [this.2, List.filterMap_cons, ho]
      simp [List.getLast?_cons]

/-- C9: starting from an empty destination variable, after any finite sequence of round
trips made one after the other through `ExtractHeader name dest tr`, the variable holds
the header value of the last outcome of `tr` that came without error and with a non-empty
value for the named header, and the empty string if there is no such outcome. -/
theorem ExtractHeader_holds_last {σ : Type} (name : String) (dest : Nat)
    (tr : RoundTripper σ) (reqs : List Request) (w : World σ) (h0 : w.mem dest = "") :
    (roundTrips (ExtractHeader name dest tr) reqs w).2.mem dest =
      lastOffered name (roundTrips tr reqs w.env).1 := by
  rw [(roundTrips_ExtractHeader name dest tr reqs w).2, h0, lastOffered]

/-- Witness for C9: four round trips, the second of which is the last to offer a value. -/
theorem ExtractHeader_holds_last_witness :
    initWorld.mem ssoHeader = "" ∧
    (roundTrips (ExtractHeader "X-GitHub-SSO" ssoHeader scriptedTransport)
      [sampleRequest, sampleRequest, sampleRequest, sampleRequest] initWorld).2.mem ssoHeader =
      lastOffered "X-GitHub-SSO" (roundTrips scriptedTransport
        [sampleRequest, sampleRequest, sampleRequest, sampleRequest] initWorld.env).1 ∧
    lastOffered "X-GitHub-SSO" (roundTrips scriptedTransport
        [sampleRequest, sampleRequest, sampleRequest, sampleRequest] initWorld.env).1 =
      "url=https://example.com/sso; other=x" :=
  ⟨rfl,
    ExtractHeader_holds_last "X-GitHub-SSO" ssoHeader scriptedTransport
      [sampleRequest, sampleRequest, sampleRequest, sampleRequest] initWorld rfl,
    by decide⟩

/-! ### The parser of the specification -/

theorem splitAttributes_ne_nil (l : List Char) : splitAttributes l ≠ [] := by
  induction l with
  | nil => simp [splitAttributes]
  | cons c cs ih =>
    unfold splitAttributes
    split
    · simp
    · split <;> simp

theorem not_mem_of_mem_splitAttributes (l : List Char) :
    ∀ p ∈ splitAttributes l, ';' ∉ p := by
  induction l with
  | nil => simp [splitAttributes]
  | cons c cs ih =>
    intro p hp
    unfold splitAttributes at hp
    split at hp
    · rcases List.mem_cons.mp hp with h | h
      · simp [h]
      · exact ih p h
    · rename_i hc
      split at hp
      · rename_i hnil
        exact absurd hnil (splitAttributes_ne_nil cs)
      · rename_i q qs hq
        rcases List.mem_cons.mp hp with h | h
        · have hq1 : ';' ∉ q := ih q (by rw [hq]; exact List.mem_cons_self _ _)
          rw [h]
          intro hmem
          rcases List.mem_cons.mp hmem with h1 | h1
          · exact hc h1.symm
          · exact hq1 h1
        · exact ih p (by rw [hq]; exact List.mem_cons_of_mem _ h)

theorem joinAttributes_cons (p : List Char) (ps : List (List Char)) :
    joinAttributes (p :: ps) = p ++ (if ps = [] then [] else ';' :: joinAttributes ps) := by
  cases ps with
  | nil => simp [joinAttributes]
  | cons q qs => simp [joinAttributes]

theorem joinAttributes_splitAttributes (l : List Char) :
    joinAttributes (splitAttributes l) = l := by
  induction l with
  | nil => simp [splitAttributes, joinAttributes]
  | cons c cs ih =>
    unfold splitAttributes
    split
    · rename_i hc
      rw [joinAttributes_cons, if_neg (splitAttributes_ne_nil cs), ih, hc]
      rfl
    · split
      · rename_i hnil
        exact absurd hnil (splitAttributes_ne_nil cs)
      · rename_i q qs hq
        rw [hq, joinAttributes_cons] at ih
        rw [joinAttributes_cons, List.cons_append, ih]

theorem splitKeyValue_eq_some (a k v : List Char) (h : splitKeyValue a = some (k, v)) :
    a = k ++ '=' :: v := by
  induction a generalizing k with
  | nil => simp [splitKeyValue] at h
  | cons c cs ih =>
    unfold splitKeyValue at h
    split at h
    · rename_i hc
      simp only [Option.some.injEq, Prod.mk.injEq] at h
      rw [← h.1, ← h.2, hc]
      rfl
    · split at h
      · rename_i k1 v1 hkv
        simp only [Option.some.injEq, Prod.mk.injEq] at h
        obtain ⟨h1, h2⟩ := h
        subst h1 h2
        rw [List.cons_append, ← ih k1 hkv]
      · exact absurd h (by simp)

theorem attributeURL_eq_none (a : List Char) (h : ¬ "url=".data <:+: a) :
    attributeURL a = none := by
  unfold attributeURL
  split
  · rename_i k v hkv
    split
    · rename_i hk
      exfalso
      apply h
      have hs := splitKeyValue_eq_some _ _ _ hkv
      have hsuf : List.dropWhile Char.isWhitespace a <:+ a := List.dropWhile_suffix _
      rw [hs, hk] at hsuf
      exact (List.IsPrefix.isInfix ⟨v, rfl⟩).trans hsuf.isInfix
    · rfl
  · rfl

theorem attributeURL_at (a v : List Char)
    (h : List.dropWhile Char.isWhitespace a = "url=".data ++ v) :
    attributeURL a = some v := by
  unfold attributeURL
  rw [h]
  have : splitKeyValue ("url=".data ++ v) = some ("url".data, v) := by
    show splitKeyValue ('u' :: 'r' :: 'l' :: '=' :: v) = some (['u', 'r', 'l'], v)
    simp [splitKeyValue]
  rw [this]
  simp

/-! ### The regular expression against the parser -/

theorem not_prefix_of_last (P X : List Char) (hne : P ≠ [])
    (hlast : ∀ c, P.getLast? = some c → c ≠ 'u' ∧ c ≠ 'r' ∧ c ≠ 'l')
    (hno : ¬ "url=".data <:+: P) : ¬ "url=".data <+: P ++ X := by
  intro hp
  have hP : P <+: P ++ X := List.prefix_append _ _
  by_cases hlen : 4 ≤ P.length
  · exact hno (List.prefix_of_prefix_length_le hp hP hlen).isInfix
  · have hPu : P <+: "url=".data :=
      List.prefix_of_prefix_length_le hP hp (by
        have h4 : "url=".data.length = 4 := by decide
        omega)
    have hPe := List.prefix_iff_eq_take.mp hPu
    have hpos : 0 < P.length := List.length_pos.mpr hne
    have hcases : P.length = 1 ∨ P.length = 2 ∨ P.length = 3 := by omega
    rcases hcases with h | h | h <;> rw [h] at hPe <;> rw [hPe] at hlast
    · exact (hlast 'u' (by decide)).1 rfl
    · exact (hlast 'r' (by decide)).2.1 rfl
    · exact (hlast 'l' (by decide)).2.2 rfl

theorem findSubmatch_skip_last (P X : List Char) (before : Option Char)
    (hlast : ∀ c, P.getLast? = some c → c ≠ 'u' ∧ c ≠ 'r' ∧ c ≠ 'l')
    (hno : ¬ "url=".data <:+: P) :
    findSubmatch before (P ++ X) = findSubmatch (if P = [] then before else P.getLast?) X := by
  induction P generalizing before with
  | nil => simp
  | cons c P1 ih =>
    have hm : matchURL (c :: (P1 ++ X)) = none :=
      matchURL_eq_none _ (not_prefix_of_last (c :: P1) X (List.cons_ne_nil _ _) hlast hno)
    have hno1 : ¬ "url=".data <:+: P1 := fun hi => hno (List.infix_cons hi)
    have hl1 : ∀ d, P1.getLast? = some d → d ≠ 'u' ∧ d ≠ 'r' ∧ d ≠ 'l' := by
      intro d hd
      cases P1 with
      | nil => simp at hd
      | cons e P2 => exact hlast d (by rw [List.getLast?_cons_cons]; exact hd)
    have hstep : findSubmatch before (c :: P1 ++ X) = findSubmatch (some c) (P1 ++ X) := by
      simp [findSubmatch, hm]
    rw [hstep, ih (some c) hl1 hno1]
    cases P1 with
    | nil => simp
    | cons d P2 => simp [List.getLast?_cons_cons]

theorem findSubmatch_at_boundary (b : Option Char) (U R : List Char)
    (hw : wordBoundary b (some 'u') = true) (hU0 : U ≠ []) (hU : ';' ∉ U)
    (hR : R = [] ∨ R.head? = some ';') :
    findSubmatch b ("url=".data ++ (U ++ R)) = some U := by
  have hm := matchURL_at U R hU0 hU hR
  have hcons : "url=".data ++ (U ++ R) = 'u' :: ("rl=".data ++ (U ++ R)) := rfl
  rw [hcons] at hm ⊢
  rw [findSubmatch, if_pos hw, hm]

theorem isWordChar_of_isWhitespace (c : Char) (h : c.isWhitespace = true) :
    isWordChar c = false := by
  simp only [Char.isWhitespace, Bool.or_eq_true, decide_eq_true_eq] at h
  rcases h with ((h | h) | h) | h <;> subst h <;> decide

theorem not_infix_of_whitespace (W : List Char) (hW : ∀ c ∈ W, c.isWhitespace = true) :
    ¬ "url=".data <:+: W := by
  intro hi
  have hu : 'u' ∈ W := hi.subset (by decide)
  exact absurd (hW 'u' hu) (by decide)

theorem not_infix_concat_semicolon (p : List Char) (h : ¬ "url=".data <:+: p) :
    ¬ "url=".data <:+: p ++ [';'] := by
  intro hi
  rcases List.infix_concat_iff.mp hi with hs | hs
  · rcases List.suffix_concat_iff.mp hs with h0 | ⟨t, ht, _⟩
    · exact absurd h0 (by decide)
    · have hl := congrArg List.getLast? ht
      rw [List.getLast?_concat] at hl
      exact absurd hl (by decide)
  · exact h hs

/-- What the regular expression and the parser do with one plain attribute `p` followed
by the rest `R` of the value: both pass over it, or both find the same value in it. -/
theorem findSubmatch_attribute (p R : List Char) (before : Option Char)
    (hb : before = none ∨ before = some ';') (hp : ';' ∉ p) (hplain : plainAttribute p)
    (hR : R = [] ∨ R.head? = some ';') :
    (attributeURL p = none ∧
      findSubmatch before (p ++ R) =
        match R with
        | [] => none
        | _ :: R1 => findSubmatch (some ';') R1) ∨
    ∃ v, attributeURL p = some v ∧ findSubmatch before (p ++ R) = some v := by
  rcases hplain with hno | ⟨hpre, hlen⟩
  · left
    refine ⟨attributeURL_eq_none p hno, ?_⟩
    cases R with
    | nil =>
      rw [List.append_nil]
      exact findSubmatch_eq_none p before hno
    | cons r R1 =>
      have hr : r = ';' := by
        rcases hR with h | h
        · exact absurd h (List.cons_ne_nil _ _)
        · simpa using h
      subst hr
      have hsplit : p ++ ';' :: R1 = (p ++ [';']) ++ R1 := by simp
      rw [hsplit, findSubmatch_skip (p ++ [';']) R1 before
        (Or.inr (Or.inl (List.getLast?_concat p))) (not_infix_concat_semicolon p hno)]
      simp
  · right
    obtain ⟨v, hv⟩ := hpre
    have hv0 : v ≠ [] := by
      intro h0
      rw [← hv, h0] at hlen
      revert hlen
      decide
    have hpeq : p = List.takeWhile Char.isWhitespace p ++ ("url=".data ++ v) := by
      rw [hv, List.takeWhile_append_dropWhile]
    have hW : ∀ c ∈ List.takeWhile Char.isWhitespace p, c.isWhitespace = true :=
      fun c hc => List.mem_takeWhile_imp hc
    have hvsemi : ';' ∉ v := by
      intro hmem
      apply hp
      rw [hpeq]
      exact List.mem_append_right _ (List.mem_append_right _ hmem)
    refine ⟨v, attributeURL_at p v hv.symm, ?_⟩
    have hlast : ∀ c, (List.takeWhile Char.isWhitespace p).getLast? = some c →
        c ≠ 'u' ∧ c ≠ 'r' ∧ c ≠ 'l' := by
      intro c hc
      have hws := hW c (List.mem_of_getLast?_eq_some hc)
      refine ⟨?_, ?_, ?_⟩ <;> rintro rfl <;> exact absurd hws (by decide)
    have hbound : wordBoundary
        (if List.takeWhile Char.isWhitespace p = [] then before
          else (List.takeWhile Char.isWhitespace p).getLast?) (some 'u') = true := by
      by_cases hnil : List.takeWhile Char.isWhitespace p = []
      · rw [if_pos hnil]
        rcases hb with h | h <;> subst h <;> decide
      · rw [if_neg hnil]
        cases hl : (List.takeWhile Char.isWhitespace p).getLast? with
        | none => decide
        | some c =>
          have hws := hW c (List.mem_of_getLast?_eq_some hl)
          have hu : isWordChar 'u' = true := by decide
          simp only [wordBoundary, Option.any, isWordChar_of_isWhitespace c hws, hu]
          decide
    have hcat : p ++ R = List.takeWhile Char.isWhitespace p ++ ("url=".data ++ (v ++ R)) := by
      conv_lhs => rw [hpeq]
      simp
    rw [hcat, findSubmatch_skip_last _ _ before hlast (not_infix_of_whitespace _ hW),
      findSubmatch_at_boundary _ v R hbound hv0 hvsemi hR]

/-- C11, as stated, fails: on the captured value `sso-url=https://example.com/sso` the
regular expression of `SSOURL` matches at the word boundary after the hyphen, while the
parser of the specification finds no attribute whose key is `url`. -/
theorem SSOURL_ne_specSSOURL :
    SSOURL "sso-url=https://example.com/sso" = "https://example.com/sso" ∧
    specSSOURL "sso-url=https://example.com/sso" = "" ∧
    ¬ ∀ h : String, SSOURL h = specSSOURL h := by
  refine ⟨by decide, by decide, fun hall => ?_⟩
  exact absurd (hall "sso-url=https://example.com/sso") (by decide)

/-! ### The client factory -/

/-- The call `AddAuthTokenHeader` makes to the wrapped transport, spelled out. -/
theorem AddAuthTokenHeader_eq {σ : Type} (norm : String → String) (cfg : configGetter σ)
    (rt : RoundTripper σ) (req : Request) (s : σ) :
    AddAuthTokenHeader norm cfg rt req s =
      rt (if (cfg.Get (norm (getHost req)) "oauth_token" s).1.2 = none ∧
            (cfg.Get (norm (getHost req)) "oauth_token" s).1.1 ≠ "" then
          { req with Header := (req.Header.Set "Authorization"
              ("token " ++ (cfg.Get (norm (getHost req)) "oauth_token" s).1.1)) }
        else req)
        (cfg.Get (norm (getHost req)) "oauth_token" s).2 := by
  simp only [AddAuthTokenHeader, funcTripper.RoundTrip]

theorem NewHTTPClient_ok {σ : Type} (IsDebugEnabled : Bool × String)
    (HTTPClient : ClientOptions → ClientResult σ) (norm : String → String)
    (opts : HTTPClientOptions σ) (client : Client σ)
    (h : HTTPClient (clientOpts IsDebugEnabled opts) = .ok client) :
    NewHTTPClient IsDebugEnabled HTTPClient norm opts =
      (some { Transport := ExtractHeader "X-GitHub-SSO" ssoHeader
                (AddAuthTokenHeader norm opts.Config client.Transport),
              Timeout := client.Timeout }, none) := by
  simp only [NewHTTPClient, h]

theorem NewHTTPClient_fail {σ : Type} (IsDebugEnabled : Bool × String)
    (HTTPClient : ClientOptions → ClientResult σ) (norm : String → String)
    (opts : HTTPClientOptions σ) (client : Option (Client σ)) (e : Error)
    (h : HTTPClient (clientOpts IsDebugEnabled opts) = .fail client e) :
    NewHTTPClient IsDebugEnabled HTTPClient norm opts = (none, some e) := by
  simp only [NewHTTPClient, h]

/-- C12: for the client `NewHTTPClient` returns and every request there is one request
`req1` and one state `s1` with which the chain calls the base transport of the constructed
client. When the lookup yields a non-empty token `t`, `req1` carries
`Authorization: token t`. When the base transport answers that call without error and
with a non-empty `X-GitHub-SSO` header, the variable `ssoHeader` holds that header value
in the state the round trip returns. -/
theorem NewHTTPClient_chain {σ : Type} (IsDebugEnabled : Bool × String)
    (norm : String → String) (opts : HTTPClientOptions σ) (req : Request) (w : World σ) :
    ∃ (req1 : Request) (s1 : σ),
      (∀ t : String,
        (opts.Config.Get (norm (getHost req)) "oauth_token" w.env).1 = (t, none) → t ≠ "" →
          req1.Header.Values "Authorization" = ["token " ++ t]) ∧
      ∀ (HTTPClient : ClientOptions → ClientResult σ) (client : Client σ),
        HTTPClient (clientOpts IsDebugEnabled opts) = .ok client →
        ∃ c : Client (World σ),
          NewHTTPClient IsDebugEnabled HTTPClient norm opts = (some c, none) ∧
          (c.Transport req w).1 = (client.Transport req1 s1).1 ∧
          (c.Transport req w).2.env = (client.Transport req1 s1).2 ∧
          ∀ (res : Response) (s2 : σ), client.Transport req1 s1 = (.ok res, s2) →
            res.Header.Get "X-GitHub-SSO" ≠ "" →
            (c.Transport req w).2.mem ssoHeader = res.Header.Get "X-GitHub-SSO" := by
  refine ⟨(if (opts.Config.Get (norm (getHost req)) "oauth_token" w.env).1.2 = none ∧
          (opts.Config.Get (norm (getHost req)) "oauth_token" w.env).1.1 ≠ "" then
        { req with Header := (req.Header.Set "Authorization"
            ("token " ++ (opts.Config.Get (norm (getHost req)) "oauth_token" w.env).1.1)) }
      else req),
    (opts.Config.Get (norm (getHost req)) "oauth_token" w.env).2, ?_,
    fun HTTPClient client hbuild =>
      ⟨_, NewHTTPClient_ok IsDebugEnabled HTTPClient norm opts client hbuild, ?_, ?_, ?_⟩⟩
  · intro t ht hne
    rw [ht]
    simp only [hne, ne_eq, not_false_eq_true, and_self, if_true]
    exact Header.Values_Set _ _ _
  · simp only [ExtractHeader_step, AddAuthTokenHeader_eq]
  · simp only [ExtractHeader_step, AddAuthTokenHeader_eq]
  · intro res s2 hrt hne
    simp only [ExtractHeader_step, AddAuthTokenHeader_eq, hrt, offered, hne, ne_eq,
      not_false_eq_true, if_true, Function.update_same]

/-- Witness for C12 at `sampleOptions`, a client over `ssoTransport`, and a world that
holds an earlier capture. -/
theorem NewHTTPClient_chain_witness :
    (sampleOptions.Config.Get (id (getHost sampleRequest)) "oauth_token"
      capturedWorld.env).1 = ("abc", none) ∧
    ∃ (req1 : Request) (c : Client (World Unit)),
      NewHTTPClient (false, "") sampleHTTPClient id sampleOptions = (some c, none) ∧
      req1.Header.Values "Authorization" = ["token abc"] ∧
      (c.Transport sampleRequest capturedWorld).1 = (ssoTransport req1 ()).1 ∧
      (c.Transport sampleRequest capturedWorld).2.mem ssoHeader =
        "url=https://example.com/sso; other=x" := by
  obtain ⟨req1, s1, hauth, hchain⟩ :=
    NewHTTPClient_chain (false, "") id sampleOptions sampleRequest capturedWorld
  obtain ⟨c, hc, hres, _, hcap⟩ := hchain sampleHTTPClient ⟨ssoTransport, 30⟩ rfl
  refine ⟨by decide, req1, c, hc, hauth "abc" (by decide) (by decide), hres, ?_⟩
  rw [hcap ssoResponse () rfl (by decide)]
  decide

/-- C13: with a lookup that is a function of host and key only, there is one request
`req1`, determined by the options and the caller's request, that every chain built by
`NewHTTPClient` from these options hands to its base transport, in whatever state the
chain is run; two such chains therefore show their base transports the same request, with
the same `Authorization` header. -/
theorem injection_deterministic {σ : Type} (IsDebugEnabled : Bool × String)
    (norm : String → String) (opts : HTTPClientOptions σ)
    (answer : String → String → String × Option Error)
    (hpure : ∀ (host key : String) (s : σ), opts.Config.Get host key s = (answer host key, s))
    (req : Request) :
    ∃ req1 : Request,
      ∀ (HTTPClient1 HTTPClient2 : ClientOptions → ClientResult σ) (client1 client2 : Client σ),
        HTTPClient1 (clientOpts IsDebugEnabled opts) = .ok client1 →
        HTTPClient2 (clientOpts IsDebugEnabled opts) = .ok client2 →
        ∃ c1 c2 : Client (World σ),
          NewHTTPClient IsDebugEnabled HTTPClient1 norm opts = (some c1, none) ∧
          NewHTTPClient IsDebugEnabled HTTPClient2 norm opts = (some c2, none) ∧
          ∀ w1 w2 : World σ,
            (c1.Transport req w1).1 = (client1.Transport req1 w1.env).1 ∧
            (c1.Transport req w1).2.env = (client1.Transport req1 w1.env).2 ∧
            (c2.Transport req w2).1 = (client2.Transport req1 w2.env).1 ∧
            (c2.Transport req w2).2.env = (client2.Transport req1 w2.env).2 := by
  refine ⟨(if (answer (norm (getHost req)) "oauth_token").2 = none ∧
          (answer (norm (getHost req)) "oauth_token").1 ≠ "" then
        { req with Header := (req.Header.Set "Authorization"
            ("token " ++ (answer (norm (getHost req)) "oauth_token").1)) }
      else req), fun HTTPClient1 HTTPClient2 client1 client2 h1 h2 =>
    ⟨_, _, NewHTTPClient_ok IsDebugEnabled HTTPClient1 norm opts client1 h1,
      NewHTTPClient_ok IsDebugEnabled HTTPClient2 norm opts client2 h2, fun w1 w2 => ?_⟩⟩
  simp only [ExtractHeader_step, AddAuthTokenHeader_eq, hpure, and_self]

/-- Witness for C13 at `sampleOptions`, whose store answers by `sampleAnswer`. -/
theorem injection_deterministic_witness :
    (∀ (host key : String) (s : Unit),
      sampleOptions.Config.Get host key s = (sampleAnswer host key, s)) ∧
    ∃ req1 : Request,
      ∀ (HTTPClient1 HTTPClient2 : ClientOptions → ClientResult Unit)
        (client1 client2 : Client Unit),
        HTTPClient1 (clientOpts (false, "") sampleOptions) = .ok client1 →
        HTTPClient2 (clientOpts (false, "") sampleOptions) = .ok client2 →
        ∃ c1 c2 : Client (World Unit),
          NewHTTPClient (false, "") HTTPClient1 id sampleOptions = (some c1, none) ∧
          NewHTTPClient (false, "") HTTPClient2 id sampleOptions = (some c2, none) ∧
          ∀ w1 w2 : World Unit,
            (c1.Transport sampleRequest w1).1 = (client1.Transport req1 w1.env).1 ∧
            (c1.Transport sampleRequest w1).2.env = (client1.Transport req1 w1.env).2 ∧
            (c2.Transport sampleRequest w2).1 = (client2.Transport req1 w2.env).1 ∧
            (c2.Transport sampleRequest w2).2.env = (client2.Transport req1 w2.env).2 :=
  ⟨fun host key s => by
      show sampleConfig.Get host key s = (sampleAnswer host key, s)
      unfold sampleConfig sampleAnswer
      by_cases h : host = "github.com" <;> simp [h],
    injection_deterministic (false, "") id sampleOptions sampleAnswer
      (fun host key s => by
        show sampleConfig.Get host key s = (sampleAnswer host key, s)
        unfold sampleConfig sampleAnswer
        by_cases h : host = "github.com" <;> simp [h])
      sampleRequest⟩

/-- C14: the error `NewHTTPClient` returns is the error of the constructor `gh.HTTPClient`,
so it returns an error exactly when the constructor does; in that case it returns no
client, and otherwise it returns the constructed client with its transport replaced by
the decorated one, and no error. -/
theorem NewHTTPClient_error {σ : Type} (IsDebugEnabled : Bool × String)
    (HTTPClient : ClientOptions → ClientResult σ) (norm : String → String)
    (opts : HTTPClientOptions σ) :
    (NewHTTPClient IsDebugEnabled HTTPClient norm opts).2 =
      (HTTPClient (clientOpts IsDebugEnabled opts)).err ∧
    ((NewHTTPClient IsDebugEnabled HTTPClient norm opts).2 ≠ none ↔
      (HTTPClient (clientOpts IsDebugEnabled opts)).err ≠ none) ∧
    (∀ (client : Option (Client σ)) (e : Error),
      HTTPClient (clientOpts IsDebugEnabled opts) = .fail client e →
      NewHTTPClient IsDebugEnabled HTTPClient norm opts = (none, some e)) ∧
    (∀ client : Client σ, HTTPClient (clientOpts IsDebugEnabled opts) = .ok client →
      NewHTTPClient IsDebugEnabled HTTPClient norm opts =
        (some { Transport := ExtractHeader "X-GitHub-SSO" ssoHeader
                  (AddAuthTokenHeader norm opts.Config client.Transport),
                Timeout := client.Timeout }, none)) := by
  have h1 : (NewHTTPClient IsDebugEnabled HTTPClient norm opts).2 =
      (HTTPClient (clientOpts IsDebugEnabled opts)).err := by
    unfold NewHTTPClient
    cases HTTPClient (clientOpts IsDebugEnabled opts) <;> rfl
  exact ⟨h1, by rw [h1],
    fun client e h => NewHTTPClient_fail IsDebugEnabled HTTPClient norm opts client e h,
    fun client h => NewHTTPClient_ok IsDebugEnabled HTTPClient norm opts client h⟩

/-- Witness for C14: a failing constructor and a succeeding one. -/
theorem NewHTTPClient_error_witness :
    NewHTTPClient (false, "") failingHTTPClient id sampleOptions = (none, some "bad options") ∧
    (NewHTTPClient (false, "") sampleHTTPClient id sampleOptions).2 = none :=
  ⟨(NewHTTPClient_error (false, "") failingHTTPClient id sampleOptions).2.2.1 none
      "bad options" rfl,
    (NewHTTPClient_error (false, "") sampleHTTPClient id sampleOptions).1⟩

/-- C15: the options `NewHTTPClient` passes to the constructor (every constructor is
called on `clientOpts`, its error being the error returned) hold: a header map with
`User-Agent` set to `"GitHub CLI " ++ AppVersion`, with `Accept` set to `""` exactly when
`SkipAcceptHeaders` is set, and with no other key; the cache flag of the caller, and the
TTL of the caller when the flag is set and zero otherwise; the log sink of the caller
when debugging is enabled and none otherwise. -/
theorem clientOpts_fields {σ : Type} (IsDebugEnabled : Bool × String)
    (opts : HTTPClientOptions σ) :
    (∀ (HTTPClient : ClientOptions → ClientResult σ) (norm : String → String),
      (NewHTTPClient IsDebugEnabled HTTPClient norm opts).2 =
        (HTTPClient (clientOpts IsDebugEnabled opts)).err) ∧
    (∀ k : String, (clientOpts IsDebugEnabled opts).Headers k =
      if k = "Accept" ∧ opts.SkipAcceptHeaders = true then some ""
      else if k = "User-Agent" then some ("GitHub CLI " ++ opts.AppVersion)
      else none) ∧
    ((clientOpts IsDebugEnabled opts).Headers "Accept" = some "" ↔
      opts.SkipAcceptHeaders = true) ∧
    (clientOpts IsDebugEnabled opts).EnableCache = opts.EnableCache ∧
    (clientOpts IsDebugEnabled opts).CacheTTL =
      (if opts.EnableCache = true then opts.CacheTTL else 0) ∧
    (clientOpts IsDebugEnabled opts).Log =
      (if IsDebugEnabled.1 = true then opts.Log else none) ∧
    (opts.Log ≠ none →
      ((clientOpts IsDebugEnabled opts).Log = opts.Log ↔ IsDebugEnabled.1 = true)) := by
  have hua : ("User-Agent" : String) ≠ "Accept" := by decide
  have hH : ∀ k : String, (clientOpts IsDebugEnabled opts).Headers k =
      if k = "Accept" ∧ opts.SkipAcceptHeaders = true then some ""
      else if k = "User-Agent" then some ("GitHub CLI " ++ opts.AppVersion)
      else none := by
    intro k
    unfold clientOpts
    by_cases hs : opts.SkipAcceptHeaders = true <;> by_cases hc : opts.EnableCache = true <;>
      by_cases hk : k = "Accept" <;> by_cases hk2 : k = "User-Agent" <;>
      simp [hs, hc, hk, hk2, Function.update_apply, hua]
  have hL : (clientOpts IsDebugEnabled opts).Log =
      (if IsDebugEnabled.1 = true then opts.Log else none) := by
    unfold clientOpts
    by_cases hd : IsDebugEnabled.1 = true <;> by_cases hc : opts.EnableCache = true <;>
      simp [hd, hc]
  refine ⟨fun HTTPClient norm => ?_, hH, ?_, ?_, ?_, hL, ?_⟩
  · unfold NewHTTPClient
    cases HTTPClient (clientOpts IsDebugEnabled opts) <;> rfl
  · rw [hH "Accept"]
    by_cases hs : opts.SkipAcceptHeaders = true <;> simp [hs]
  · unfold clientOpts
    by_cases hc : opts.EnableCache = true <;> by_cases hd : IsDebugEnabled.1 = true <;>
      simp [hc, hd]
  · unfold clientOpts
    by_cases hc : opts.EnableCache = true <;> by_cases hd : IsDebugEnabled.1 = true <;>
      simp [hc, hd]
  · intro hlog
    rw [hL]
    by_cases hd : IsDebugEnabled.1 = true
    · simp [hd]
    · rw [if_neg hd]
      exact ⟨fun h => absurd h.symm hlog, fun h => absurd h hd⟩

/-- Witness for C15 at `sampleOptions` with debugging off: the TTL of 60 and the log
sink of the caller are not passed on. -/
theorem clientOpts_fields_witness :
    (clientOpts (false, "") sampleOptions).Headers "User-Agent" = some "GitHub CLI 2.0.0" ∧
    (clientOpts (false, "") sampleOptions).Headers "Accept" = some "" ∧
    (clientOpts (false, "") sampleOptions).Headers "Authorization" = none ∧
    (clientOpts (false, "") sampleOptions).EnableCache = false ∧
    (clientOpts (false, "") sampleOptions).CacheTTL = 0 ∧
    (clientOpts (false, "") sampleOptions).Log = none :=
  ⟨((clientOpts_fields (false, "") sampleOptions).2.1 "User-Agent").trans (by decide),
    ((clientOpts_fields (false, "") sampleOptions).2.1 "Accept").trans (by decide),
    ((clientOpts_fields (false, "") sampleOptions).2.1 "Authorization").trans (by decide),
    (clientOpts_fields (false, "") sampleOptions).2.2.2.1,
    (clientOpts_fields (false, "") sampleOptions).2.2.2.2.1,
    (clientOpts_fields (false, "") sampleOptions).2.2.2.2.2.1⟩

/-! ### Calls made by the chain -/

/-- C17: with the credential store and the base transport instrumented to record their
calls, one round trip through the chain `ExtractHeader name dest (AddAuthTokenHeader cfg
base)` appends exactly two calls to the trace: one `Get` for the normalized host of the
request with key `oauth_token`, then one `RoundTrip` of the base transport. This holds
for every store, base transport and prior state, whatever the two calls return. -/
theorem chain_calls_once {σ : Type} (norm : String → String) (cfg : configGetter σ)
    (base : RoundTripper σ) (name : String) (dest : Nat) (req : Request)
    (mem : Nat → String) (log : List Event) (s : σ) :
    ∃ req1 : Request,
      (ExtractHeader name dest
        (AddAuthTokenHeader norm (tracedGetter cfg) (tracedTransport base)) req
        { mem := mem, env := (log, s) }).2.env.1 =
      log ++ [Event.lookup (norm (getHost req)) "oauth_token", Event.roundTrip req1] := by
  refine ⟨(if (cfg.Get (norm (getHost req)) "oauth_token" s).1.2 = none ∧
          (cfg.Get (norm (getHost req)) "oauth_token" s).1.1 ≠ "" then
        { req with Header := (req.Header.Set "Authorization"
            ("token " ++ (cfg.Get (norm (getHost req)) "oauth_token" s).1.1)) }
      else req), ?_⟩
  simp only [ExtractHeader_step, AddAuthTokenHeader_eq, tracedGetter, tracedTransport,
    List.append_assoc, List.singleton_append]

/-- Witness for C17 with a failing lookup and a failing transport. -/
theorem chain_calls_once_witness :
    ∃ req1 : Request,
      (ExtractHeader "X-GitHub-SSO" ssoHeader
        (AddAuthTokenHeader id (tracedGetter failingConfig) (tracedTransport failingTransport))
        sampleRequest { mem := initMem, env := ([], ()) }).2.env.1 =
      [] ++ [Event.lookup (id (getHost sampleRequest)) "oauth_token", Event.roundTrip req1] :=
  chain_calls_once id failingConfig failingTransport "X-GitHub-SSO" ssoHeader sampleRequest
    initMem [] ()

/-! ### The captured value is kept -/

theorem offered_ne_empty (name : String) (r : Result) (v : String)
    (h : offered name r = some v) : v ≠ "" := by
  cases r with
  | ok res =>
    by_cases hne : res.Header.Get name ≠ ""
    · have hv : some (res.Header.Get name) = some v := by
        rw [← h, offered, if_pos hne]
      rw [← Option.some.inj hv]
      exact hne
    · rw [offered, if_neg hne] at h
      exact absurd h (by simp)
  | fail res e => simp [offered] at h

/-- C18: once the destination variable holds a non-empty string, it holds a non-empty
string after every further sequence of round trips through `ExtractHeader name dest`,
whatever their outcomes. -/
theorem ExtractHeader_never_resets {σ : Type} (name : String) (dest : Nat)
    (tr : RoundTripper σ) (reqs : List Request) (w : World σ) (h : w.mem dest ≠ "") :
    (roundTrips (ExtractHeader name dest tr) reqs w).2.mem dest ≠ "" := by
  rw [(roundTrips_ExtractHeader name dest tr reqs w).2]
  cases hl : (List.filterMap (offered name) (roundTrips tr reqs w.env).1).getLast? with
  | none => exact h
  | some v =>
    have hmem := List.mem_of_getLast?_eq_some hl
    obtain ⟨r, _, hr⟩ := List.mem_filterMap.mp hmem
    exact offered_ne_empty name r v hr

/-- Witness for C18: an error, a response with an empty header map, and again an error
leave the earlier capture in place. -/
theorem ExtractHeader_never_resets_witness :
    capturedWorld.mem ssoHeader ≠ "" ∧
    (roundTrips (ExtractHeader "X-GitHub-SSO" ssoHeader failingTransport)
      [sampleRequest, sampleRequest, sampleRequest] capturedWorld).2.mem ssoHeader ≠ "" ∧
    (roundTrips (ExtractHeader "X-GitHub-SSO" ssoHeader plainTransport)
      [sampleRequest, sampleRequest] capturedWorld).2.mem ssoHeader =
      "url=https://old.example/sso" :=
  ⟨by decide,
    ExtractHeader_never_resets "X-GitHub-SSO" ssoHeader failingTransport
      [sampleRequest, sampleRequest, sampleRequest] capturedWorld (by decide),
    by decide⟩

/-! ### Shape of the result of `SSOURL` -/

theorem matchURL_eq_some (s m : List Char) (h : matchURL s = some m) :
    m ≠ [] ∧ ';' ∉ m ∧
      ∃ B : List Char, s = "url=".data ++ (m ++ B) ∧ (B = [] ∨ B.head? = some ';') := by
  unfold matchURL at h
  by_cases hp : "url=".data.isPrefixOf s = true
  · rw [if_pos hp] at h
    obtain ⟨t, ht⟩ := List.isPrefixOf_iff_prefix.mp hp
    have hd : s.drop 4 = t := by
      have h4 : "url=".data.length = 4 := by decide
      rw [← ht, ← h4, List.drop_left]
    rw [hd] at h
    have hm : List.takeWhile (fun c => c != ';') t = m := by
      cases htw : List.takeWhile (fun c => c != ';') t with
      | nil =>
        rw [htw] at h
        exact absurd h (by simp)
      | cons a l =>
        rw [htw] at h
        exact Option.some.inj h
    refine ⟨?_, ?_, List.dropWhile (fun c => c != ';') t, ?_, ?_⟩
    · intro h0
      rw [← hm] at h0
      rw [h0] at h
      exact absurd h (by simp)
    · intro hmem
      rw [← hm] at hmem
      have := List.mem_takeWhile_imp hmem
      simp at this
    · rw [← hm, List.takeWhile_append_dropWhile, ht]
    · have hh := List.head?_dropWhile_not (fun c => c != ';') t
      cases hB : List.dropWhile (fun c => c != ';') t with
      | nil => exact Or.inl rfl
      | cons b B1 =>
        rw [hB] at hh
        right
        simpa using hh
  · rw [if_neg hp] at h
    exact absurd h (by simp)

theorem findSubmatch_eq_some (l : List Char) (before : Option Char) (m : List Char)
    (h : findSubmatch before l = some m) :
    m ≠ [] ∧ ';' ∉ m ∧
      ∃ A B : List Char, l = A ++ ("url=".data ++ (m ++ B)) ∧ (B = [] ∨ B.head? = some ';') := by
  induction l generalizing before with
  | nil => simp [findSubmatch] at h
  | cons c cs ih =>
    rw [findSubmatch] at h
    cases hm : (if wordBoundary before (some c) = true then matchURL (c :: cs) else none) with
    | some m1 =>
      rw [hm] at h
      have hmm : matchURL (c :: cs) = some m := by
        by_cases hw : wordBoundary before (some c) = true
        · rw [if_pos hw] at hm
          rw [hm]
          exact h
        · rw [if_neg hw] at hm
          exact absurd hm (by simp)
      obtain ⟨h1, h2, B, hB, hB2⟩ := matchURL_eq_some _ _ hmm
      exact ⟨h1, h2, [], B, by rw [hB]; rfl, hB2⟩
    | none =>
      rw [hm] at h
      obtain ⟨h1, h2, A, B, hAB, hB2⟩ := ih (some c) h
      exact ⟨h1, h2, c :: A, B, by rw [hAB]; rfl, hB2⟩

/-- C19: for every captured value `h` the result `r` of `SSOURL` holds no `;`, and when
`r` is not empty, `h` is `A ++ "url=" ++ r ++ B` for some `A` and some `B` that is empty
or starts with `;`. -/
theorem SSOURL_shape (h : String) :
    ';' ∉ (SSOURL h).data ∧
    (SSOURL h ≠ "" →
      ∃ A B : String, h = A ++ "url=" ++ SSOURL h ++ B ∧
        (B = "" ∨ B.data.head? = some ';')) := by
  unfold SSOURL
  by_cases he : h = ""
  · rw [if_pos he]
    exact ⟨by decide, fun hne => absurd rfl hne⟩
  · rw [if_neg he]
    cases hf : findSubmatch none h.data with
    | none => exact ⟨by decide, fun hne => absurd rfl hne⟩
    | some m =>
      obtain ⟨_, h2, A, B, hAB, hB⟩ := findSubmatch_eq_some _ _ _ hf
      refine ⟨h2, fun _ => ⟨String.mk A, String.mk B, ?_, ?_⟩⟩
      · apply String.ext
        simp only [String.data_append]
        rw [hAB]
        simp
      · rcases hB with hB | hB
        · exact Or.inl (by rw [hB])
        · exact Or.inr hB

/-- Witness for C19 on a value with attributes before and after the URL. -/
theorem SSOURL_shape_witness :
    SSOURL "required; url=https://example.com/sso; other=x" = "https://example.com/sso" ∧
    ';' ∉ (SSOURL "required; url=https://example.com/sso; other=x").data ∧
    ∃ A B : String,
      "required; url=https://example.com/sso; other=x" =
        A ++ "url=" ++ SSOURL "required; url=https://example.com/sso; other=x" ++ B ∧
      (B = "" ∨ B.data.head? = some ';') :=
  ⟨by decide, (SSOURL_shape "required; url=https://example.com/sso; other=x").1,
    (SSOURL_shape "required; url=https://example.com/sso; other=x").2 (by decide)⟩

/-! ### What the auth layer leaves alone -/

/-- C20: the request `req1` that `AddAuthTokenHeader cfg rt` hands to `rt` (in the state
the lookup left, and returning what `rt` returns) has the `Host` field and the URL of the
caller's request and the same values under every header key other than `Authorization`;
and behind `ExtractHeader` the string variables end as they would with `rt` called on
`req1` directly, so the auth layer writes none of them. -/
theorem AddAuthTokenHeader_frame {σ : Type} (norm : String → String)
    (cfg : configGetter σ) (req : Request) (s : σ) :
    ∃ req1 : Request,
      (∀ rt : RoundTripper σ, AddAuthTokenHeader norm cfg rt req s =
        rt req1 (cfg.Get (norm (getHost req)) "oauth_token" s).2) ∧
      req1.Host = req.Host ∧ req1.URL = req.URL ∧
      (∀ k : String, k ≠ "Authorization" → req1.Header k = req.Header k) ∧
      (∀ key : String, CanonicalMIMEHeaderKey key ≠ "Authorization" →
        req1.Header.Values key = req.Header.Values key ∧
        req1.Header.Get key = req.Header.Get key) ∧
      (∀ (name : String) (dest : Nat) (rt : RoundTripper σ) (mem : Nat → String),
        (ExtractHeader name dest (AddAuthTokenHeader norm cfg rt) req
          { mem := mem, env := s }).2.mem =
        (ExtractHeader name dest rt req1
          { mem := mem, env := (cfg.Get (norm (getHost req)) "oauth_token" s).2 }).2.mem) := by
  have hcanon : CanonicalMIMEHeaderKey "Authorization" = "Authorization" := by decide
  refine ⟨(if (cfg.Get (norm (getHost req)) "oauth_token" s).1.2 = none ∧
          (cfg.Get (norm (getHost req)) "oauth_token" s).1.1 ≠ "" then
        { req with Header := (req.Header.Set "Authorization"
            ("token " ++ (cfg.Get (norm (getHost req)) "oauth_token" s).1.1)) }
      else req), fun rt => AddAuthTokenHeader_eq norm cfg rt req s, ?_, ?_, ?_, ?_, ?_⟩
  · split <;> rfl
  · split <;> rfl
  · intro k hk
    split
    · show Function.update req.Header (CanonicalMIMEHeaderKey "Authorization") _ k = _
      rw [hcanon, Function.update_noteq hk]
    · rfl
  · intro key hkey
    split
    · have hupd : ∀ v : List String,
          Function.update req.Header (CanonicalMIMEHeaderKey "Authorization") v
            (CanonicalMIMEHeaderKey key) = req.Header (CanonicalMIMEHeaderKey key) := by
        intro v
        rw [hcanon, Function.update_noteq hkey]
      simp only [Header.Set, Header.Values, Header.Get, hupd, and_self]
    · exact ⟨rfl, rfl⟩
  · intro name dest rt mem
    simp only [ExtractHeader_step, AddAuthTokenHeader_eq]

/-- Witness for C20: the `Accept` header of a request passes the auth layer as it is,
while the token is set. -/
theorem AddAuthTokenHeader_frame_witness :
    ∃ req1 : Request,
      (∀ rt : RoundTripper Unit,
        AddAuthTokenHeader id sampleConfig rt sampleRequest () = rt req1 ()) ∧
      req1.Host = sampleRequest.Host ∧ req1.URL = sampleRequest.URL ∧
      req1.Header.Values "Accept" = sampleRequest.Header.Values "Accept" := by
  obtain ⟨req1, h1, h2, h3, _, h5, _⟩ := AddAuthTokenHeader_frame id sampleConfig sampleRequest ()
  exact ⟨req1, h1, h2, h3, (h5 "Accept" (by decide)).1⟩

/-! ### Where the regular expression matches -/

theorem findSubmatch_congr_before (b1 b2 : Option Char) (l : List Char)
    (h : b1.any isWordChar = b2.any isWordChar) : findSubmatch b1 l = findSubmatch b2 l := by
  cases l with
  | nil => rfl
  | cons c cs => simp only [findSubmatch, wordBoundary, h]

theorem wordBoundary_url (before : Option Char) :
    wordBoundary before (some 'u') = true ↔ ∀ a : Char, before = some a → isWordChar a = false := by
  have hu : isWordChar 'u' = true := by decide
  cases before with
  | none => simp [wordBoundary, hu]
  | some b =>
    cases hb : isWordChar b <;> simp [wordBoundary, Option.any, hu, hb]

theorem matchURL_ne_none_iff (s : List Char) :
    matchURL s ≠ none ↔ ∃ (c : Char) (B : List Char), s = "url=".data ++ c :: B ∧ c ≠ ';' := by
  constructor
  · intro h
    cases hm : matchURL s with
    | none => exact absurd hm h
    | some m =>
      obtain ⟨h1, h2, B, hB, _⟩ := matchURL_eq_some s m hm
      cases m with
      | nil => exact absurd rfl h1
      | cons c m1 =>
        refine ⟨c, m1 ++ B, by rw [hB]; rfl, ?_⟩
        rintro rfl
        exact h2 (List.mem_cons_self _ _)
  · rintro ⟨c, B, hs, hc⟩
    subst hs
    have hp : "url=".data.isPrefixOf ("url=".data ++ c :: B) = true :=
      List.isPrefixOf_iff_prefix.mpr (List.prefix_append _ _)
    have hd : ("url=".data ++ c :: B).drop 4 = c :: B := by
      have h4 : "url=".data.length = 4 := by decide
      rw [← h4, List.drop_left]
    have hcb : (c != ';') = true := by simpa using hc
    unfold matchURL
    rw [if_pos hp, hd, List.takeWhile_cons, if_pos hcb]
    simp

theorem findSubmatch_cons_of_none (before : Option Char) (x : Char) (xs : List Char)
    (h : (if wordBoundary before (some x) = true then matchURL (x :: xs) else none) = none) :
    findSubmatch before (x :: xs) = findSubmatch (some x) xs := by
  rw [findSubmatch, h]

theorem findSubmatch_cons_of_some (before : Option Char) (x : Char) (xs m : List Char)
    (h : (if wordBoundary before (some x) = true then matchURL (x :: xs) else none) = some m) :
    findSubmatch before (x :: xs) = some m := by
  rw [findSubmatch, h]

/-- The search finds a match exactly when `url=` occurs after a non-word character (or
at the start, where `before` decides) and is followed by a character other than `;`. -/
theorem findSubmatch_ne_none_iff (l : List Char) (before : Option Char) :
    findSubmatch before l ≠ none ↔
      ∃ (A B : List Char) (c : Char), l = A ++ ("url=".data ++ c :: B) ∧ c ≠ ';' ∧
        ∀ a : Char, (if A = [] then before else A.getLast?) = some a →
          isWordChar a = false := by
  induction l generalizing before with
  | nil =>
    constructor
    · intro h
      exact absurd rfl h
    · rintro ⟨A, B, c, hl, _⟩
      have hlen := congrArg List.length hl
      simp at hlen
      omega
  | cons x xs ih =>
    constructor
    · intro h
      cases hatt : (if wordBoundary before (some x) = true then matchURL (x :: xs) else none) with
      | some m =>
        have hw : wordBoundary before (some x) = true := by
          by_contra hw
          rw [if_neg hw] at hatt
          exact absurd hatt (by simp)
        rw [if_pos hw] at hatt
        obtain ⟨c, B, hs, hc⟩ := (matchURL_ne_none_iff _).mp (by rw [hatt]; simp)
        have hx : x = 'u' := by
          have := congrArg List.head? hs
          simpa using this
        refine ⟨[], B, c, by simpa using hs, hc, ?_⟩
        rw [hx] at hw
        simpa using (wordBoundary_url before).mp hw
      | none =>
        rw [findSubmatch_cons_of_none before x xs hatt] at h
        obtain ⟨A, B, c, hl, hc, hb⟩ := (ih (some x)).mp h
        refine ⟨x :: A, B, c, by rw [hl]; rfl, hc, ?_⟩
        intro a ha
        rw [if_neg (List.cons_ne_nil _ _)] at ha
        apply hb
        cases A with
        | nil => simpa using ha
        | cons a1 A1 =>
          rw [if_neg (List.cons_ne_nil _ _)]
          rw [List.getLast?_cons_cons] at ha
          exact ha
    · rintro ⟨A, B, c, hl, hc, hb⟩
      cases A with
      | nil =>
        have hs : x :: xs = "url=".data ++ c :: B := by simpa using hl
        have hx : x = 'u' := by
          have := congrArg List.head? hs
          simpa using this
        have hw : wordBoundary before (some x) = true := by
          rw [hx]
          exact (wordBoundary_url before).mpr (by simpa using hb)
        have hm : matchURL (x :: xs) ≠ none := (matchURL_ne_none_iff _).mpr ⟨c, B, hs, hc⟩
        cases hmm : matchURL (x :: xs) with
        | none => exact absurd hmm hm
        | some m =>
          rw [findSubmatch_cons_of_some before x xs m (by rw [if_pos hw, hmm])]
          simp
      | cons a0 A1 =>
        have hhead : x = a0 ∧ xs = A1 ++ ("url=".data ++ c :: B) := by
          have := hl
          simp only [List.cons_append, List.cons.injEq] at this
          exact this
        obtain ⟨hx, hxs⟩ := hhead
        have hrec : findSubmatch (some x) xs ≠ none := by
          refine (ih (some x)).mpr ⟨A1, B, c, hxs, hc, ?_⟩
          intro a ha
          apply hb
          rw [if_neg (List.cons_ne_nil _ _)]
          cases A1 with
          | nil =>
            rw [if_pos rfl] at ha
            rw [← hx]
            simpa using ha
          | cons a1 A2 =>
            rw [if_neg (List.cons_ne_nil _ _)] at ha
            rw [List.getLast?_cons_cons]
            exact ha
        cases hatt : (if wordBoundary before (some x) = true then matchURL (x :: xs) else none) with
        | some m =>
          rw [findSubmatch_cons_of_some before x xs m hatt]
          simp
        | none =>
          rw [findSubmatch_cons_of_none before x xs hatt]
          exact hrec

theorem urlOccurrence_iff (l : List Char) : urlOccurrence l ↔ findSubmatch none l ≠ none := by
  rw [findSubmatch_ne_none_iff]
  unfold urlOccurrence
  constructor
  · rintro ⟨A, B, c, hl, hc, hb⟩
    refine ⟨A, B, c, hl, hc, fun a ha => hb a ?_⟩
    by_cases hA : A = []
    · rw [if_pos hA] at ha
      exact absurd ha (by simp)
    · rw [if_neg hA] at ha
      exact ha
  · rintro ⟨A, B, c, hl, hc, hb⟩
    refine ⟨A, B, c, hl, hc, fun a ha => hb a ?_⟩
    by_cases hA : A = []
    · rw [hA] at ha
      exact absurd ha (by simp)
    · rw [if_neg hA]
      exact ha

/-- C8, as stated, fails: the captured value `foo=bar; next-url=https://example.com/sso`
has no attribute whose key is `url`, yet `SSOURL` returns the URL, because the regular
expression matches `url=` after the hyphen. -/
theorem SSOURL_nonempty_without_url_key :
    (∀ a ∈ splitAttributes "foo=bar; next-url=https://example.com/sso".data,
      attributeURL a = none) ∧
    SSOURL "foo=bar; next-url=https://example.com/sso" = "https://example.com/sso" ∧
    ¬ ∀ h : String, (∀ a ∈ splitAttributes h.data, attributeURL a = none) → SSOURL h = "" := by
  refine ⟨by decide, by decide, fun hall => ?_⟩
  exact absurd (hall "foo=bar; next-url=https://example.com/sso" (by decide)) (by decide)

/-- C8, amended: `SSOURL` returns the empty string exactly for the captured values without
an occurrence of `url=` that stands at the start of the value or after a character other
than a letter, a digit or `_`, and is followed by a character other than `;`. -/
theorem SSOURL_eq_empty_iff (h : String) : SSOURL h = "" ↔ ¬ urlOccurrence h.data := by
  rw [urlOccurrence_iff]
  unfold SSOURL
  by_cases he : h = ""
  · subst he
    simp [findSubmatch]
  · rw [if_neg he]
    cases hf : findSubmatch none h.data with
    | none => simp
    | some m =>
      have hm : m ≠ [] := (findSubmatch_eq_some _ _ _ hf).1
      have hne : String.mk m ≠ "" := fun hs => hm (congrArg String.data hs)
      simp [hne]

/-- Witness for C8, amended: the initial value of `ssoHeader`, `foo=bar` and `curl=x` give
the empty string and hold no such occurrence; `sso-url=https://example.com/sso` holds
one. -/
theorem SSOURL_eq_empty_iff_witness :
    initMem ssoHeader = "" ∧ SSOURL (initMem ssoHeader) = "" ∧
    SSOURL "foo=bar" = "" ∧ ¬ urlOccurrence "foo=bar".data ∧
    SSOURL "curl=x" = "" ∧ ¬ urlOccurrence "curl=x".data ∧
    SSOURL "sso-url=https://example.com/sso" ≠ "" ∧
    urlOccurrence "sso-url=https://example.com/sso".data :=
  ⟨rfl, by decide,
    by decide, (SSOURL_eq_empty_iff "foo=bar").mp (by decide),
    by decide, (SSOURL_eq_empty_iff "curl=x").mp (by decide),
    by decide,
    ⟨"sso-".data, "ttps://example.com/sso".data, 'h', by decide, by decide, fun a ha => by
      have hl : "sso-".data.getLast? = some '-' := by decide
      rw [hl] at ha
      cases ha
      decide⟩⟩

/-! ### The regular expression, attribute by attribute -/

theorem matchURL_append_semicolon (C R : List Char) (hC : ';' ∉ C) :
    matchURL (C ++ ';' :: R) = matchURL C := by
  by_cases hp : "url=".data <+: C
  · obtain ⟨D, hD⟩ := hp
    have hDsemi : ';' ∉ D := fun hmem => hC (by rw [← hD]; exact List.mem_append_right _ hmem)
    have hp1 : "url=".data.isPrefixOf ("url=".data ++ D ++ ';' :: R) = true :=
      List.isPrefixOf_iff_prefix.mpr ⟨D ++ ';' :: R, by simp⟩
    have hp2 : "url=".data.isPrefixOf ("url=".data ++ D) = true :=
      List.isPrefixOf_iff_prefix.mpr (List.prefix_append _ _)
    have h4 : "url=".data.length = 4 := by decide
    have hd1 : ("url=".data ++ D ++ ';' :: R).drop 4 = D ++ ';' :: R := by
      rw [List.append_assoc, ← h4, List.drop_left]
    have hd2 : ("url=".data ++ D).drop 4 = D := by
      rw [← h4, List.drop_left]
    have ht1 := takeWhile_capture D (';' :: R) hDsemi (Or.inr rfl)
    have ht2 := takeWhile_capture D [] hDsemi (Or.inl rfl)
    rw [List.append_nil] at ht2
    rw [← hD]
    unfold matchURL
    rw [if_pos hp1, if_pos hp2, hd1, hd2, ht1, ht2]
  · rw [matchURL_eq_none C hp]
    apply matchURL_eq_none
    rintro ⟨t, ht⟩
    have hlen : C.length < 4 := by
      by_contra hge
      have h4 : "url=".data.length = 4 := by decide
      exact hp (List.prefix_of_prefix_length_le ⟨t, ht⟩ (List.prefix_append C (';' :: R))
        (by omega))
    have h1 : (C ++ ';' :: R)[C.length]? = some ';' := by
      rw [List.getElem?_append_right (le_refl _)]
      simp
    have h2 : ("url=".data ++ t)[C.length]? = "url=".data[C.length]? :=
      List.getElem?_append_left (by
        have h4 : "url=".data.length = 4 := by decide
        omega)
    rw [← ht, h2] at h1
    have hcases : C.length = 0 ∨ C.length = 1 ∨ C.length = 2 ∨ C.length = 3 := by omega
    rcases hcases with h | h | h | h <;> rw [h] at h1 <;> revert h1 <;> decide

theorem findSubmatch_append_semicolon (p R : List Char) (before : Option Char)
    (hp : ';' ∉ p) :
    findSubmatch before (p ++ ';' :: R) =
      match findSubmatch before p with
      | some m => some m
      | none => findSubmatch (some ';') R := by
  induction p generalizing before with
  | nil =>
    have hm : matchURL (';' :: R) = none := matchURL_eq_none _ (by
      rintro ⟨t, ht⟩
      have := congrArg List.head? ht
      revert this
      simp)
    have hatt : (if wordBoundary before (some ';') = true then matchURL (';' :: R) else none)
        = none := by
      rw [hm]
      simp
    rw [List.nil_append, findSubmatch_cons_of_none before ';' R hatt]
    rfl
  | cons c p1 ih =>
    have hp1 : ';' ∉ p1 := fun h => hp (List.mem_cons_of_mem _ h)
    have hM : matchURL (c :: p1 ++ ';' :: R) = matchURL (c :: p1) :=
      matchURL_append_semicolon (c :: p1) R hp
    cases hatt : (if wordBoundary before (some c) = true then matchURL (c :: p1) else none) with
    | some m =>
      have hatt2 : (if wordBoundary before (some c) = true
          then matchURL (c :: (p1 ++ ';' :: R)) else none) = some m := by
        rw [← List.cons_append, hM]
        exact hatt
      rw [List.cons_append, findSubmatch_cons_of_some before c _ m hatt2,
        findSubmatch_cons_of_some before c p1 m hatt]
    | none =>
      have hatt2 : (if wordBoundary before (some c) = true
          then matchURL (c :: (p1 ++ ';' :: R)) else none) = none := by
        rw [← List.cons_append, hM]
        exact hatt
      rw [List.cons_append, findSubmatch_cons_of_none before c _ hatt2,
        findSubmatch_cons_of_none before c p1 hatt]
      exact ih (some c) hp1

/-- The search over the whole value is the search in its attributes, one after the
other: the result is that of the first attribute in which the expression matches. -/
theorem findSubmatch_joinAttributes (ps : List (List Char)) (before : Option Char)
    (hb : before.any isWordChar = false) (hps : ∀ p ∈ ps, ';' ∉ p) :
    findSubmatch before (joinAttributes ps) = ps.findSome? (findSubmatch none) := by
  induction ps generalizing before with
  | nil => simp [joinAttributes, findSubmatch]
  | cons p qs ih =>
    have hp := hps p (List.mem_cons_self _ _)
    have hqs : ∀ q ∈ qs, ';' ∉ q := fun q hq => hps q (List.mem_cons_of_mem _ hq)
    have hbp : findSubmatch before p = findSubmatch none p :=
      findSubmatch_congr_before before none p (by rw [hb]; rfl)
    rw [joinAttributes_cons, List.findSome?_cons]
    by_cases hnil : qs = []
    · subst hnil
      rw [if_pos rfl, List.append_nil, hbp]
      cases findSubmatch none p <;> simp
    · rw [if_neg hnil, findSubmatch_append_semicolon p _ before hp, hbp,
        ih (some ';') (by decide) hqs]
      cases findSubmatch none p <;> rfl

theorem attributeURL_eq_some (a v : List Char) (h : attributeURL a = some v) :
    List.dropWhile Char.isWhitespace a = "url=".data ++ v := by
  unfold attributeURL at h
  cases hkv : splitKeyValue (List.dropWhile Char.isWhitespace a) with
  | none =>
    rw [hkv] at h
    exact absurd h (by simp)
  | some kv =>
    obtain ⟨k, v1⟩ := kv
    rw [hkv] at h
    by_cases hk : k = "url".data
    · have hv : v1 = v := by simpa [hk] using h
      rw [splitKeyValue_eq_some _ _ _ hkv, hk, hv]
      rfl
    · simp [hk] at h

theorem findSubmatch_bare (b : Option Char) : findSubmatch b "url=".data = none := by
  have hm : matchURL ('u' :: "rl=".data) = none := by decide
  have hatt : (if wordBoundary b (some 'u') = true then matchURL ('u' :: "rl=".data)
      else none) = none := by
    rw [hm]
    simp
  rw [show "url=".data = 'u' :: "rl=".data from rfl, findSubmatch_cons_of_none b 'u' _ hatt]
  decide

theorem findSubmatch_url_key (k v : List Char) (hk : ';' ∉ k)
    (ha : attributeURL k = some v) (hv : v ≠ []) : findSubmatch none k = some v := by
  have hd := attributeURL_eq_some k v ha
  have hplain : plainAttribute k := by
    right
    refine ⟨⟨v, hd.symm⟩, ?_⟩
    rw [hd, List.length_append]
    have h4 : "url=".data.length = 4 := by decide
    have hpos : 0 < v.length := List.length_pos.mpr hv
    omega
  rcases findSubmatch_attribute k [] none (Or.inl rfl) hk hplain (Or.inl rfl) with
    ⟨hnone, _⟩ | ⟨v1, hv1, hf⟩
  · rw [ha] at hnone
    exact absurd hnone (by simp)
  · rw [ha] at hv1
    rw [List.append_nil] at hf
    rw [hf, ← Option.some.inj hv1]

theorem findSubmatch_empty_key (k : List Char) (ha : attributeURL k = some []) :
    findSubmatch none k = none := by
  have hd := attributeURL_eq_some k [] ha
  rw [List.append_nil] at hd
  have hW : ∀ c ∈ List.takeWhile Char.isWhitespace k, c.isWhitespace = true :=
    fun c hc => List.mem_takeWhile_imp hc
  have hlast : ∀ c, (List.takeWhile Char.isWhitespace k).getLast? = some c →
      c ≠ 'u' ∧ c ≠ 'r' ∧ c ≠ 'l' := by
    intro c hc
    have hws := hW c (List.mem_of_getLast?_eq_some hc)
    refine ⟨?_, ?_, ?_⟩ <;> rintro rfl <;> exact absurd hws (by decide)
  have hk : k = List.takeWhile Char.isWhitespace k ++ "url=".data := by
    rw [← hd, List.takeWhile_append_dropWhile]
  rw [hk, findSubmatch_skip_last _ _ none hlast (not_infix_of_whitespace _ hW)]
  exact findSubmatch_bare _

/-- C11, amended: split the attributes of the captured value into those before the first
attribute whose key is `url` (`pre`) and the rest. If no attribute of `pre` holds an
occurrence of `url=` after a non-word character (or at its start) followed by a further
character, and if the attribute with key `url`, when there is one, has a non-empty value
or is followed by no attribute holding such an occurrence, then the result of `SSOURL` is
the result of the parser of the specification. -/
theorem SSOURL_eq_specSSOURL (h : String) (pre rest : List (List Char))
    (hsplit : splitAttributes h.data = pre ++ rest)
    (hpre : ∀ a ∈ pre, attributeURL a = none ∧ ¬ urlOccurrence a)
    (hrest : rest = [] ∨ ∃ (k v : List Char) (post : List (List Char)),
      rest = k :: post ∧ attributeURL k = some v ∧
        (v ≠ [] ∨ ∀ a ∈ post, ¬ urlOccurrence a)) :
    SSOURL h = specSSOURL h := by
  have hjoin := findSubmatch_joinAttributes (splitAttributes h.data) none rfl
    (not_mem_of_mem_splitAttributes h.data)
  rw [joinAttributes_splitAttributes] at hjoin
  have hnone : ∀ l : List (List Char), (∀ a ∈ l, ¬ urlOccurrence a) →
      l.findSome? (findSubmatch none) = none := by
    intro l hl
    refine List.findSome?_eq_none_iff.mpr fun a ha => ?_
    by_contra hne
    exact hl a ha ((urlOccurrence_iff a).mpr hne)
  have hpre1 : pre.findSome? (findSubmatch none) = none := hnone pre fun a ha => (hpre a ha).2
  have hpre2 : pre.findSome? attributeURL = none :=
    List.findSome?_eq_none_iff.mpr fun a ha => (hpre a ha).1
  unfold SSOURL specSSOURL
  by_cases he : h = ""
  · subst he
    decide
  · rw [if_neg he, hjoin, hsplit, List.findSome?_append, List.findSome?_append, hpre1, hpre2,
      Option.none_or, Option.none_or]
    rcases hrest with hr | ⟨k, v, post, hr, hk, hv⟩
    · rw [hr]
      rfl
    · have hmem : k ∈ splitAttributes h.data := by
        rw [hsplit, hr]
        exact List.mem_append_right _ (List.mem_cons_self _ _)
      have hksemi := not_mem_of_mem_splitAttributes h.data k hmem
      rw [hr, List.findSome?_cons, List.findSome?_cons, hk]
      by_cases hv0 : v = []
      · subst hv0
        have hpost : ∀ a ∈ post, ¬ urlOccurrence a := by
          rcases hv with hv | hv
          · exact absurd rfl hv
          · exact hv
        rw [findSubmatch_empty_key k hk, hnone post hpost]
      · rw [findSubmatch_url_key k v hksemi hk hv0]

theorem not_urlOccurrence_of_eq_none (l : List Char) (h : findSubmatch none l = none) :
    ¬ urlOccurrence l :=
  fun ho => (urlOccurrence_iff l).mp ho h

/-- Witness for C11, amended: `callback_url=x` holds `url=` after a word character only,
the attribute with key `url` has a value, and what follows it is free; and the value
`url=` alone, whose attribute with key `url` has an empty value. -/
theorem SSOURL_eq_specSSOURL_witness :
    splitAttributes "callback_url=x; url=https://example.com/sso; next-url=y".data =
      ["callback_url=x".data] ++
        [" url=https://example.com/sso".data, " next-url=y".data] ∧
    attributeURL "callback_url=x".data = none ∧ ¬ urlOccurrence "callback_url=x".data ∧
    attributeURL " url=https://example.com/sso".data = some "https://example.com/sso".data ∧
    SSOURL "callback_url=x; url=https://example.com/sso; next-url=y" =
      specSSOURL "callback_url=x; url=https://example.com/sso; next-url=y" ∧
    specSSOURL "callback_url=x; url=https://example.com/sso; next-url=y" =
      "https://example.com/sso" ∧
    SSOURL "url=" = specSSOURL "url=" :=
  ⟨by decide, by decide, not_urlOccurrence_of_eq_none _ (by decide), by decide,
    SSOURL_eq_specSSOURL "callback_url=x; url=https://example.com/sso; next-url=y"
      ["callback_url=x".data] [" url=https://example.com/sso".data, " next-url=y".data]
      (by decide)
      (fun a ha => by
        have ha1 : a = "callback_url=x".data := by simpa using ha
        subst ha1
        exact ⟨by decide, not_urlOccurrence_of_eq_none _ (by decide)⟩)
      (Or.inr ⟨" url=https://example.com/sso".data, "https://example.com/sso".data,
        [" next-url=y".data], rfl, by decide, Or.inl (by decide)⟩),
    by decide,
    SSOURL_eq_specSSOURL "url=" [] ["url=".data] (by decide)
      (fun a ha => absurd ha (List.not_mem_nil a))
      (Or.inr ⟨"url=".data, [], [], rfl, by decide,
        Or.inr fun a ha => absurd ha (List.not_mem_nil a)⟩)⟩

end Factory
